import Mathlib

/-!
Verification of the Minesweeper board engine in
`src/src/components/Minesweeper.tsx`.

The TypeScript source is shallowly embedded: `Cell[][]` becomes
`List (List Cell)`, in-place mutation becomes explicit board passing,
`Math.random()` draws become an explicit stream of candidate coordinates,
the unbounded `while` loops become fuel-indexed recursions, and the two
React click handlers become functions on an explicit `Session` record
returning `Option Session` (where `none` models the `TypeError` the
source throws on an out-of-bounds array access).
-/

set_option maxHeartbeats 1000000
set_option linter.unusedVariables false
set_option maxRecDepth 16384

namespace Minesweeper

/-- Cell of the grid, mirroring the `Cell` type of the source
(fields `x`, `y`, `isMine`, `isRevealed`, `isFlagged`, `adjacent`). -/
structure Cell where
  x : Nat
  y : Nat
  isMine : Bool
  isRevealed : Bool
  isFlagged : Bool
  adjacent : Nat
deriving DecidableEq

instance : Inhabited Cell := ⟨⟨0, 0, false, false, false, 0⟩⟩

/-- A board is a row-major grid of cells (`Cell[][]`, indexed `board[y][x]`). -/
abbrev Board := List (List Cell)

/-- Row count, `board.length` in the source. -/
def rows (b : Board) : Nat := b.length

/-- Column count, `board[0].length` in the source. -/
def cols (b : Board) : Nat := (b.getD 0 []).length

/-- Total read of `board[y][x]`, giving a default cell out of bounds
(the source would fault on such a read; every verified execution path
performs this read in bounds only). -/
def cellAtD (b : Board) (x y : Nat) : Cell := (b.getD y []).getD x default

/-- Replace the element at one index of a list, leaving the list unchanged
when the index is out of range.  Used to embed `board[y][x].f = v`. -/
def modifyAt {α : Type} (f : α → α) : Nat → List α → List α
  | _, [] => []
  | 0, a :: as => f a :: as
  | n + 1, a :: as => a :: modifyAt f n as

/-- Update the single cell `board[y][x]` with `f`. -/
def updateCell (b : Board) (x y : Nat) (f : Cell → Cell) : Board :=
  modifyAt (fun row => modifyAt f x row) y b

/-- Map a function over every cell of the board. -/
def mapBoard (f : Cell → Cell) (b : Board) : Board := b.map (List.map f)

/-- Well-formed board: nonempty rectangular grid, every row as long as
row 0 (the source computes `cols` from `board[0].length`). -/
def WF (b : Board) : Prop :=
  0 < rows b ∧ 0 < cols b ∧ ∀ i, i < rows b → (b.getD i []).length = cols b

/-- In-bounds check for a coordinate pair `(x, y)`. -/
def inB (b : Board) (p : Nat × Nat) : Prop := p.1 < cols b ∧ p.2 < rows b

instance (b : Board) (p : Nat × Nat) : Decidable (inB b p) := by
  unfold inB; infer_instance

instance (b : Board) : Decidable (WF b) := by
  unfold WF; exact instDecidableAnd

/-- Offsets `(dx, dy)` enumerated by the source's neighbor loops
(`dy` outer from -1 to 1, `dx` inner from -1 to 1, skipping `(0,0)`). -/
def dirs : List (Int × Int) :=
  [(-1, -1), (0, -1), (1, -1), (-1, 0), (1, 0), (-1, 1), (0, 1), (1, 1)]

/-- In-bounds 8-neighborhood of `(x, y)` on an `rs × cs` grid, in the
order the source's loops visit it, with the bounds check
`nx >= 0 && nx < cols && ny >= 0 && ny < rows`. -/
def nbrs (rs cs : Nat) (x y : Nat) : List (Nat × Nat) :=
  dirs.filterMap fun d =>
    let nx : Int := (x : Int) + d.1
    let ny : Int := (y : Int) + d.2
    if 0 ≤ nx ∧ nx < (cs : Int) ∧ 0 ≤ ny ∧ ny < (rs : Int) then
      some (nx.toNat, ny.toNat)
    else none

/-- Enumeration of all coordinates of an `rs × cs` grid. -/
def allCoords (rs cs : Nat) : List (Nat × Nat) :=
  (List.range (rs * cs)).map fun i => (i % cs, i / cs)

/-- Embeds `createEmptyBoard(rows, cols)`: a grid of blank cells with
coordinates matching their position. -/
def createEmptyBoard (rs cs : Nat) : Board :=
  (List.range rs).map fun y =>
    (List.range cs).map fun x =>
      { x := x, y := y, isMine := false, isRevealed := false,
        isFlagged := false, adjacent := 0 }

/-- Embeds the `while (placed < mines)` rejection-sampling loop of
`placeMines`.  The stream `picks` supplies the successive outcomes of the
two `Math.floor(Math.random() * _)` draws (each in bounds by construction
in the source); `none` means the stream was exhausted before `mines`
cells were placed, i.e. the source loop would still be running. -/
def placeLoop (b : Board) (mines placed : Nat) (initial : Int × Int) :
    List (Nat × Nat) → Option Board
  | [] => if mines ≤ placed then some b else none
  | (px, py) :: rest =>
    if mines ≤ placed then some b
    else if ((px : Int) = initial.1 ∧ (py : Int) = initial.2) ∨
        (cellAtD b px py).isMine = true then
      placeLoop b mines placed initial rest
    else
      placeLoop (updateCell b px py fun c => { c with isMine := true })
        mines (placed + 1) initial rest

/-- Count of mined in-bounds neighbors of `(x, y)`, as computed by the
inner double loop of `placeMines`. -/
def neighborMineCount (b : Board) (x y : Nat) : Nat :=
  (nbrs (rows b) (cols b) x y).countP fun p => (cellAtD b p.1 p.2).isMine

/-- Embeds the adjacency pass of `placeMines`: every non-mine cell gets
`adjacent` set to its mined-neighbor count; mine cells are skipped.  The
source updates in place but only ever reads `isMine`, which this pass
never writes, so reading from the input board is equivalent. -/
def computeAdjacency (b : Board) : Board :=
  (List.range (rows b)).map fun y =>
    (List.range (cols b)).map fun x =>
      let c := cellAtD b x y
      if c.isMine then c else { c with adjacent := neighborMineCount b x y }

/-- Embeds `placeMines(board, mines, initial)`: the rejection-sampling
placement loop followed by the adjacency pass. -/
def placeMines (b : Board) (mines : Nat) (initial : Int × Int)
    (picks : List (Nat × Nat)) : Option Board :=
  (placeLoop b mines 0 initial picks).map computeAdjacency

/-- Coordinate the frontier choice `sel` pops from a nonempty frontier. -/
def popCoord (sel : List (Nat × Nat) → Nat) (frontier : List (Nat × Nat)) :
    Nat × Nat :=
  frontier.getD (sel frontier % frontier.length) (0, 0)

/-- Frontier left after popping `popCoord`. -/
def popRest (sel : List (Nat × Nat) → Nat) (frontier : List (Nat × Nat)) :
    List (Nat × Nat) :=
  frontier.eraseIdx (sel frontier % frontier.length)

/-- Embeds the `while (stack.length)` loop of `revealCell`, one iteration
per fuel unit.  `sel` chooses which frontier element to process next (the
source always pops the last — LIFO — but the traversal order is
quantified over in the statements); `fuel` bounds the iteration count,
and the canonical fuel used by `revealCell` provably drains the frontier.
A popped coordinate already seen is skipped via the visited set, exactly
as in the source; a popped out-of-bounds coordinate is skipped too (the
source would fault on it, and no in-bounds start ever produces one since
every push is bounds-checked). -/
def revealLoop (sel : List (Nat × Nat) → Nat) :
    Board → List (Nat × Nat) → List (Nat × Nat) → Nat → Board
  | b, _, _, 0 => b
  | b, frontier, visited, fuel + 1 =>
    match frontier with
    | [] => b
    | q :: qs =>
      if popCoord sel (q :: qs) ∈ visited then
        revealLoop sel b (popRest sel (q :: qs)) visited fuel
      else if inB b (popCoord sel (q :: qs)) then
        (if (cellAtD b (popCoord sel (q :: qs)).1
              (popCoord sel (q :: qs)).2).isRevealed = true ∨
            (cellAtD b (popCoord sel (q :: qs)).1
              (popCoord sel (q :: qs)).2).isFlagged = true then
          revealLoop sel b (popRest sel (q :: qs))
            (popCoord sel (q :: qs) :: visited) fuel
        else if (cellAtD b (popCoord sel (q :: qs)).1
              (popCoord sel (q :: qs)).2).adjacent = 0 ∧
            (cellAtD b (popCoord sel (q :: qs)).1
              (popCoord sel (q :: qs)).2).isMine = false then
          revealLoop sel
            (updateCell b (popCoord sel (q :: qs)).1 (popCoord sel (q :: qs)).2
              fun cc => { cc with isRevealed := true })
            (popRest sel (q :: qs) ++
              nbrs (rows b) (cols b) (popCoord sel (q :: qs)).1
                (popCoord sel (q :: qs)).2)
            (popCoord sel (q :: qs) :: visited) fuel
        else
          revealLoop sel
            (updateCell b (popCoord sel (q :: qs)).1 (popCoord sel (q :: qs)).2
              fun cc => { cc with isRevealed := true })
            (popRest sel (q :: qs)) (popCoord sel (q :: qs) :: visited) fuel)
      else revealLoop sel b (popRest sel (q :: qs))
        (popCoord sel (q :: qs) :: visited) fuel

/-- LIFO frontier choice: the source's `stack.pop()` takes the last
element (pushes append at the end). -/
def selLast (l : List (Nat × Nat)) : Nat := l.length - 1

/-- Fuel that provably drains any frontier of `revealCell`. -/
def revealFuel (b : Board) : Nat := 9 * (rows b * cols b) + 1

/-- Embeds `revealCell(board, x, y)`: LIFO flood fill from `(x, y)`. -/
def revealCell (b : Board) (x y : Nat) : Board :=
  revealLoop selLast b [(x, y)] [] (revealFuel b)

/-- Embeds `checkWin(board, mines)`: true iff the number of revealed
non-mine cells equals the number of non-mine cells (`mines` is unused by
the source as well). -/
def checkWin (b : Board) (_mines : Nat) : Bool :=
  (b.flatten.countP fun c => !c.isMine && c.isRevealed) =
    (b.flatten.countP fun c => !c.isMine)

/-- Embeds `countFlags(board)`: `board.flat().filter(c => c.isFlagged).length`. -/
def countFlags (b : Board) : Nat :=
  (b.flatten.filter fun c => c.isFlagged).length

/-- Number of mine cells of a board (used to state mine-count claims). -/
def countMines (b : Board) : Nat :=
  b.flatten.countP fun c => c.isMine

/-- Game status enumeration of the source (`"playing" | "won" | "lost"`). -/
inductive GameStatus where
  | playing
  | won
  | lost
deriving DecidableEq

/-- Difficulty presets of the source. -/
inductive Difficulty where
  | Beginner
  | Intermediate
  | Expert
deriving DecidableEq

/-- The `DIFFICULTIES` table: `(rows, cols, mines)` per preset. -/
def DIFFICULTIES : Difficulty → Nat × Nat × Nat
  | .Beginner => (9, 9, 10)
  | .Intermediate => (16, 16, 40)
  | .Expert => (16, 30, 99)

/-- Engine-visible component state: difficulty, board, status and the
`started` flag (the clock display is outside the embedded engine). -/
structure Session where
  difficulty : Difficulty
  board : Board
  status : GameStatus
  started : Bool
deriving DecidableEq

/-- A fresh session for a preset, as built by `resetGame` and the
difficulty-change effect: empty board, `playing`, not started. -/
def freshSession (d : Difficulty) : Session :=
  { difficulty := d,
    board := createEmptyBoard (DIFFICULTIES d).1 (DIFFICULTIES d).2.1,
    status := .playing,
    started := false }

/-- Read of `board[y][x]` from the click handlers, where `x` and `y` are
arbitrary integers: `none` models the `TypeError` the source throws when
the access leaves the grid. -/
def cellAt? (b : Board) (x y : Int) : Option Cell :=
  if 0 ≤ x ∧ x < (cols b : Int) ∧ 0 ≤ y ∧ y < (rows b : Int) then
    some (cellAtD b x.toNat y.toNat)
  else none

/-- Embeds `handleCellClick(x, y)`.  The result is the updated session;
`none` models a crash (out-of-bounds access) or an exhausted random
stream during first-click mine placement.  The source's `cell` binding
is a live alias into the mutated board, so the mine test after placement
is re-read from the placed board here. -/
def handleCellClick (s : Session) (x y : Int) (picks : List (Nat × Nat)) :
    Option Session :=
  if s.status ≠ .playing then some s
  else
    match cellAt? s.board x y with
    | none => none
    | some cell =>
      if cell.isFlagged = true ∨ cell.isRevealed = true then some s
      else
        match (if s.started then some s.board
            else placeMines s.board (DIFFICULTIES s.difficulty).2.2 (x, y)
              picks) with
        | none => none
        | some b1 =>
          match cellAt? b1 x y with
          | none => none
          | some cell1 =>
            if cell1.isMine = true then
              some { s with
                board := mapBoard
                  (fun c => if c.isMine then { c with isRevealed := true }
                    else c)
                  (updateCell b1 x.toNat y.toNat
                    fun c => { c with isRevealed := true }),
                status := .lost, started := true }
            else
              if checkWin (revealCell b1 x.toNat y.toNat)
                  (DIFFICULTIES s.difficulty).2.2 then
                some { s with
                  board := mapBoard
                    (fun c => if c.isMine then { c with isFlagged := true }
                      else c)
                    (revealCell b1 x.toNat y.toNat),
                  status := .won, started := true }
              else
                some { s with
                  board := revealCell b1 x.toNat y.toNat,
                  started := true }

/-- Embeds `handleCellRightClick(e, x, y)` (flag toggle); `none` models
the crash on an out-of-bounds access. -/
def handleCellRightClick (s : Session) (x y : Int) : Option Session :=
  if s.status ≠ .playing ∨ s.started = false then some s
  else
    match cellAt? s.board x y with
    | none => none
    | some cell =>
      if cell.isRevealed = true then some s
      else
        some { s with
          board := updateCell s.board x.toNat y.toNat
            fun c => { c with isFlagged := !c.isFlagged } }

/-- One engine action: a (non-crashing) left click, a (non-crashing)
right click, a reset, or a difficulty change. -/
inductive Step : Session → Session → Prop where
  | click {s s1 : Session} (x y : Int) (picks : List (Nat × Nat))
      (h : handleCellClick s x y picks = some s1) : Step s s1
  | rclick {s s1 : Session} (x y : Int)
      (h : handleCellRightClick s x y = some s1) : Step s s1
  | reset {s : Session} : Step s (freshSession s.difficulty)
  | changeDifficulty {s : Session} (d : Difficulty) : Step s (freshSession d)

/-- Sessions reachable from some fresh session by engine actions. -/
def Reachable (s : Session) : Prop :=
  ∃ d, Relation.ReflTransGen Step (freshSession d) s

/-- Cell that the flood fill may mark: in bounds, not yet revealed and
not flagged (on the board the fill started from). -/
def eligible (b : Board) (p : Nat × Nat) : Prop :=
  inB b p ∧ (cellAtD b p.1 p.2).isRevealed = false ∧
    (cellAtD b p.1 p.2).isFlagged = false

instance (b : Board) (p : Nat × Nat) : Decidable (eligible b p) := by
  unfold eligible; infer_instance

/-- Cell through which the flood fill propagates: markable, zero
adjacency and not a mine. -/
def expanding (b : Board) (p : Nat × Nat) : Prop :=
  eligible b p ∧ (cellAtD b p.1 p.2).adjacent = 0 ∧
    (cellAtD b p.1 p.2).isMine = false

instance (b : Board) (p : Nat × Nat) : Decidable (expanding b p) := by
  unfold expanding; infer_instance

/-- Coordinates the flood fill started at `s` can pop: the start itself,
and every in-bounds neighbor of a reachable propagating cell. -/
inductive Reaches (b : Board) (s : Nat × Nat) : Nat × Nat → Prop where
  | refl : Reaches b s s
  | step {c d : Nat × Nat} (hc : Reaches b s c) (he : expanding b c)
      (hd : d ∈ nbrs (rows b) (cols b) c.1 c.2) : Reaches b s d

/-- Number of in-bounds coordinates not yet visited (termination measure
of the flood fill). -/
def unvis (b : Board) (visited : List (Nat × Nat)) : Nat :=
  (allCoords (rows b) (cols b)).countP fun p => !decide (p ∈ visited)

/-- Modelled from the spec wording of the flood-fill invariant: a
"zero-adjacency cell" through which the claimed propagation passes —
in bounds, not a mine, `adjacent = 0`, and not flagged (the claim says
flagged cells block propagation, and says nothing about revealed ones). -/
def specZeroB (b : Board) (p : Nat × Nat) : Bool :=
  decide (inB b p) && !(cellAtD b p.1 p.2).isMine &&
    ((cellAtD b p.1 p.2).adjacent == 0) && !(cellAtD b p.1 p.2).isFlagged

/-- Modelled from the spec wording: one growth step of the claimed
revealed region — add every 8-neighbor of a zero-adjacency member. -/
def specGrow (b : Board) (cur : List (Nat × Nat)) : List (Nat × Nat) :=
  cur ++ (((cur.filter (specZeroB b)).flatMap fun p =>
    nbrs (rows b) (cols b) p.1 p.2).filter fun q => !cur.contains q)

/-- Iterate the claimed growth step. -/
def specIter (b : Board) : Nat → List (Nat × Nat) → List (Nat × Nat)
  | 0, cur => cur
  | n + 1, cur => specIter b n (specGrow b cur)

/-- Modelled from the spec wording of the flood-fill invariant: the set
the claim says `revealCell` marks — the connected component of
zero-adjacency cells reachable from the start via 8-neighbor adjacency
plus every cell bordering that component, with flagged cells removed
(they are "never revealed"). -/
def specMarkedSet (b : Board) (s : Nat × Nat) (fuel : Nat) : List (Nat × Nat) :=
  (specIter b fuel [s]).filter fun q => !(cellAtD b q.1 q.2).isFlagged

/-- Board witnessing that already-revealed cells block propagation: one
row of three blank zero-adjacency cells whose middle cell is already
revealed. -/
def blockedBoard : Board :=
  updateCell (createEmptyBoard 1 3) 1 0 fun c => { c with isRevealed := true }

/-- Board with two of four cells already mined, for the termination
counterexample. -/
def preMinedBoard : Board :=
  updateCell (updateCell (createEmptyBoard 2 2) 0 0 fun c => { c with isMine := true })
    1 0 fun c => { c with isMine := true }

/-- Mine positions used to drive the first click of the loss scenario:
ten cells, none equal to the clicked cell `(0, 0)`, three of them
walling off the corner `(8, 8)` so the first click does not win. -/
def lossPicks : List (Nat × Nat) :=
  [(7, 7), (8, 7), (7, 8), (2, 2), (3, 2), (4, 2), (2, 3), (3, 3), (4, 3), (2, 4)]

/-- Session after the loss scenario's first click at `(0, 0)`. -/
def lossSession1 : Session :=
  (handleCellClick (freshSession .Beginner) 0 0 lossPicks).getD (freshSession .Beginner)

/-- Session after additionally flagging the mine at `(7, 7)`. -/
def lossSession2 : Session :=
  (handleCellRightClick lossSession1 7 7).getD lossSession1

/-- Session after additionally clicking the mine at `(8, 7)`: the game
is lost and every mine is revealed, including the flagged one. -/
def lossSession3 : Session :=
  (handleCellClick lossSession2 8 7 []).getD lossSession2


/-! Basic lemmas about `modifyAt`, `getD`, `countP` and `eraseIdx`. -/

theorem length_modifyAt {α : Type} (f : α → α) (n : Nat) (l : List α) :
    (modifyAt f n l).length = l.length := by
  induction l generalizing n with
  | nil => cases n <;> rfl
  | cons a as ih => cases n with
    | zero => rfl
    | succ m => simpa [modifyAt] using ih m

theorem getD_modifyAt_self {α : Type} (f : α → α) {n : Nat} {l : List α}
    (h : n < l.length) (d : α) : (modifyAt f n l).getD n d = f (l.getD n d) := by
  induction l generalizing n with
  | nil => simp at h
  | cons a as ih => cases n with
    | zero => rfl
    | succ m => simpa [modifyAt] using ih (by simpa using h)

theorem getD_modifyAt_ne {α : Type} (f : α → α) {n m : Nat} {l : List α}
    (h : n ≠ m) {d : α} : (modifyAt f n l).getD m d = l.getD m d := by
  induction l generalizing n m with
  | nil => cases n <;> rfl
  | cons a as ih =>
    cases n with
    | zero =>
      cases m with
      | zero => exact absurd rfl h
      | succ k => rfl
    | succ j =>
      cases m with
      | zero => rfl
      | succ k =>
        have hjk : j ≠ k := fun hc => h (by rw [hc])
        simpa [modifyAt] using ih hjk

theorem getD_mem {α : Type} {l : List α} {n : Nat} (h : n < l.length) (d : α) :
    l.getD n d ∈ l := by
  rw [List.getD_eq_getElem l d h]
  exact l.getElem_mem h

theorem mem_eraseIdx_of_ne {α : Type} {l : List α} {a : α} {i : Nat}
    (hmem : a ∈ l) (d : α) (hne : a ≠ l.getD i d) :
    a ∈ l.eraseIdx i := by
  induction l generalizing i with
  | nil => simp at hmem
  | cons x xs ih =>
    cases i with
    | zero =>
      have hax : a ≠ x := by simpa using hne
      rcases List.mem_cons.mp hmem with h1 | h1
      · exact absurd h1 hax
      · simpa [List.eraseIdx] using h1
    | succ j =>
      have hne2 : a ≠ xs.getD j d := by simpa using hne
      rcases List.mem_cons.mp hmem with h1 | h1
      · simp [List.eraseIdx, h1]
      · simp only [List.eraseIdx, List.mem_cons]
        exact Or.inr (ih h1 hne2)

theorem countP_le_countP {α : Type} {p q : α → Bool} (l : List α)
    (h : ∀ a, p a = true → q a = true) : l.countP p ≤ l.countP q := by
  induction l with
  | nil => simp
  | cons a as ih =>
    rw [List.countP_cons, List.countP_cons]
    have hif : (if p a then 1 else 0) ≤ (if q a then 1 else 0) := by
      by_cases hp : p a = true
      · simp [hp, h a hp]
      · simp [hp]
    omega

theorem countP_lt_countP {α : Type} {p q : α → Bool} {l : List α} {c : α}
    (hc : c ∈ l) (hqc : q c = true) (hpc : p c = false)
    (h : ∀ a, p a = true → q a = true) : l.countP p < l.countP q := by
  induction l with
  | nil => simp at hc
  | cons a as ih =>
    rw [List.countP_cons, List.countP_cons]
    rcases List.mem_cons.mp hc with rfl | hmem
    · have hle := countP_le_countP as h
      simp only [hpc, hqc]
      simp
      omega
    · have hlt := ih hmem
      have hif : (if p a then 1 else 0) ≤ (if q a then 1 else 0) := by
        by_cases hp : p a = true
        · simp [hp, h a hp]
        · simp [hp]
      omega

theorem countP_congr_mem {α : Type} {p q : α → Bool} {l : List α}
    (h : ∀ a ∈ l, p a = q a) : l.countP p = l.countP q :=
  List.countP_congr fun a ha => by rw [h a ha]

theorem countP_eq_countP_iff {α : Type} {p q : α → Bool} (l : List α)
    (h : ∀ a, p a = true → q a = true) :
    (l.countP p = l.countP q ↔ ∀ a ∈ l, q a = true → p a = true) := by
  constructor
  · intro he a ha hq
    by_contra hp
    have hp2 : p a = false := by simpa using hp
    exact absurd he (Nat.ne_of_lt (countP_lt_countP ha hq hp2 h))
  · intro hall
    refine countP_congr_mem fun a ha => ?_
    by_cases hp : p a = true
    · rw [hp, h a hp]
    · have hp2 : p a = false := by simpa using hp
      by_cases hq : q a = true
      · exact absurd (hall a ha hq) (by simp [hp2])
      · have hq2 : q a = false := by simpa using hq
        rw [hp2, hq2]

theorem countP_flip_one {α : Type} {p q : α → Bool} {l : List α} {c : α}
    (hnd : l.Nodup) (hc : c ∈ l) (hpc : p c = true) (hqc : q c = false)
    (h : ∀ a, a ≠ c → p a = q a) : l.countP p = l.countP q + 1 := by
  induction l with
  | nil => simp at hc
  | cons a as ih =>
    have hnd1 := (List.nodup_cons.mp hnd).1
    have hnd2 := (List.nodup_cons.mp hnd).2
    rw [List.countP_cons, List.countP_cons]
    rcases List.mem_cons.mp hc with rfl | hmem
    · have heq : as.countP p = as.countP q :=
        countP_congr_mem fun b hb => h b (fun hbc => hnd1 (hbc ▸ hb))
      simp [hpc, hqc, heq]
    · have hac : a ≠ c := fun hacc => hnd1 (hacc ▸ hmem)
      have heq := h a hac
      have hrec := ih hnd2 hmem
      have hif : (if p a then 1 else 0) = (if q a then (1 : Nat) else 0) := by
        rw [heq]
      omega

theorem countP_single_mem {α : Type} [DecidableEq α] {l : List α} {c : α}
    (hnd : l.Nodup) (hc : c ∈ l) :
    (l.countP fun a => decide (a = c)) = 1 := by
  induction l with
  | nil => simp at hc
  | cons a as ih =>
    have hnd1 := (List.nodup_cons.mp hnd).1
    have hnd2 := (List.nodup_cons.mp hnd).2
    rw [List.countP_cons]
    rcases List.mem_cons.mp hc with rfl | hmem
    · have hz : (as.countP fun b => decide (b = c)) = 0 := by
        rw [List.countP_eq_zero]
        intro b hb
        simp only [decide_eq_true_eq]
        exact fun hba => hnd1 (hba ▸ hb)
      simp [hz]
    · have hac : a ≠ c := fun hacc => hnd1 (hacc ▸ hmem)
      simp [hac, ih hnd2 hmem]

theorem map_getD_range {α : Type} (l : List α) (d : α) :
    (List.range l.length).map (fun i => l.getD i d) = l := by
  induction l with
  | nil => rfl
  | cons a as ih =>
    show (List.range (as.length + 1)).map (fun i => (a :: as).getD i d) = a :: as
    rw [List.range_succ_eq_map, List.map_cons, List.map_map]
    have h1 : (a :: as).getD 0 d = a := by simp
    have h2 : ((fun i => (a :: as).getD i d) ∘ Nat.succ) = fun i => as.getD i d := by
      funext i
      simp
    rw [h1, h2, ih]

/-! Board-level lemmas: dimensions, cell reads, updates and maps. -/

theorem getD_map_range {α : Type} (f : Nat → α) {n i : Nat} (h : i < n) (d : α) :
    ((List.range n).map f).getD i d = f i := by
  rw [List.getD_eq_getElem _ _ (by simpa using h)]
  simp

theorem cellAtD_oob {b : Board} {x y : Nat}
    (h : ¬(y < rows b ∧ x < (b.getD y []).length)) : cellAtD b x y = default := by
  unfold cellAtD
  unfold rows at h
  by_cases hy : y < b.length
  · rcases Nat.lt_or_ge x (b.getD y []).length with hx | hx
    · exact absurd (And.intro hy hx) h
    · exact List.getD_eq_default _ _ hx
  · rw [List.getD_eq_default b [] (by omega)]
    simp

theorem rows_updateCell (b : Board) (x y : Nat) (f : Cell → Cell) :
    rows (updateCell b x y f) = rows b := length_modifyAt _ _ _

theorem rowlen_updateCell (b : Board) (x y : Nat) (f : Cell → Cell) (i : Nat) :
    ((updateCell b x y f).getD i []).length = (b.getD i []).length := by
  unfold updateCell
  by_cases hi : y = i
  · subst hi
    by_cases hy : y < b.length
    · rw [getD_modifyAt_self _ hy, length_modifyAt]
    · have h1 : b.length ≤ y := by omega
      have h2 : (modifyAt (fun row => modifyAt f x row) y b).length ≤ y := by
        rw [length_modifyAt]
        exact h1
      rw [List.getD_eq_default _ _ h2, List.getD_eq_default _ _ h1]
  · rw [getD_modifyAt_ne _ hi]

theorem cols_updateCell (b : Board) (x y : Nat) (f : Cell → Cell) :
    cols (updateCell b x y f) = cols b := rowlen_updateCell b x y f 0

theorem WF_updateCell {b : Board} (x y : Nat) (f : Cell → Cell) (h : WF b) :
    WF (updateCell b x y f) := by
  obtain ⟨h1, h2, h3⟩ := h
  refine ⟨by rwa [rows_updateCell], by rwa [cols_updateCell], fun i hi => ?_⟩
  rw [rowlen_updateCell, cols_updateCell]
  exact h3 i (by rwa [rows_updateCell] at hi)

theorem cellAtD_updateCell_cases (b : Board) (x y : Nat) (f : Cell → Cell)
    (x' y' : Nat) :
    cellAtD (updateCell b x y f) x' y' = cellAtD b x' y' ∨
      (x' = x ∧ y' = y ∧
        cellAtD (updateCell b x y f) x' y' = f (cellAtD b x' y')) := by
  unfold cellAtD updateCell
  by_cases hy : y' = y
  · rw [hy]
    by_cases hyr : y < b.length
    · rw [getD_modifyAt_self _ hyr]
      by_cases hx : x' = x
      · rw [hx]
        by_cases hxr : x < (b.getD y []).length
        · exact Or.inr (And.intro rfl (And.intro rfl (getD_modifyAt_self _ hxr _)))
        · have h1 : (b.getD y []).length ≤ x := by omega
          have h2 : (modifyAt f x (b.getD y [])).length ≤ x := by
            rw [length_modifyAt]
            exact h1
          have hterm : (modifyAt f x (b.getD y [])).getD x default =
              (b.getD y []).getD x default := by
            rw [List.getD_eq_default _ _ h2, List.getD_eq_default _ _ h1]
          exact Or.inl hterm
      · exact Or.inl (getD_modifyAt_ne _ (Ne.symm hx))
    · have h1 : b.length ≤ y := by omega
      have h2 : (modifyAt (fun row => modifyAt f x row) y b).length ≤ y := by
        rw [length_modifyAt]
        exact h1
      rw [List.getD_eq_default _ _ h2, List.getD_eq_default _ _ h1]
      exact Or.inl rfl
  · have hrow : (modifyAt (fun row => modifyAt f x row) y b).getD y' [] =
        b.getD y' [] := getD_modifyAt_ne _ (Ne.symm hy)
    exact Or.inl (by rw [hrow])

theorem cellAtD_updateCell_ne {b : Board} {x y : Nat} (f : Cell → Cell)
    {x' y' : Nat} (h : ¬(x' = x ∧ y' = y)) :
    cellAtD (updateCell b x y f) x' y' = cellAtD b x' y' := by
  rcases cellAtD_updateCell_cases b x y f x' y' with h1 | h1
  · exact h1
  · exact absurd (And.intro h1.1 h1.2.1) h

theorem cellAtD_updateCell_self {b : Board} {x y : Nat} (f : Cell → Cell)
    (hy : y < rows b) (hx : x < (b.getD y []).length) :
    cellAtD (updateCell b x y f) x y = f (cellAtD b x y) := by
  unfold cellAtD updateCell
  unfold rows at hy
  rw [getD_modifyAt_self _ hy]
  exact getD_modifyAt_self _ hx _

theorem rows_mapBoard (f : Cell → Cell) (b : Board) :
    rows (mapBoard f b) = rows b := List.length_map _ _

theorem rowlen_mapBoard (f : Cell → Cell) (b : Board) (i : Nat) :
    ((mapBoard f b).getD i []).length = (b.getD i []).length := by
  unfold mapBoard
  by_cases hi : i < b.length
  · rw [List.getD_eq_getElem _ _ (by simpa using hi), List.getD_eq_getElem _ _ hi]
    simp
  · rw [List.getD_eq_default _ _ (by simpa using hi),
      List.getD_eq_default _ _ (by omega)]

theorem cols_mapBoard (f : Cell → Cell) (b : Board) :
    cols (mapBoard f b) = cols b := rowlen_mapBoard f b 0

theorem cellAtD_mapBoard_self (f : Cell → Cell) {b : Board} {x y : Nat}
    (hy : y < rows b) (hx : x < (b.getD y []).length) :
    cellAtD (mapBoard f b) x y = f (cellAtD b x y) := by
  unfold cellAtD mapBoard
  unfold rows at hy
  have hy2 : y < (List.map (List.map f) b).length := by simpa using hy
  have hrow : (List.map (List.map f) b).getD y [] = List.map f (b.getD y []) := by
    rw [List.getD_eq_getElem _ _ hy2, List.getD_eq_getElem _ _ hy, List.getElem_map]
  rw [hrow]
  have hx2 : x < (List.map f (b.getD y [])).length := by simpa using hx
  rw [List.getD_eq_getElem _ _ hx2, List.getD_eq_getElem _ _ hx, List.getElem_map]

theorem cellAtD_mapBoard_cases (f : Cell → Cell) (b : Board) (x y : Nat) :
    cellAtD (mapBoard f b) x y = f (cellAtD b x y) ∨
      (cellAtD (mapBoard f b) x y = default ∧ cellAtD b x y = default) := by
  by_cases hy : y < rows b
  · by_cases hx : x < (b.getD y []).length
    · exact Or.inl (cellAtD_mapBoard_self f hy hx)
    · refine Or.inr (And.intro ?_ (cellAtD_oob (by omega)))
      refine cellAtD_oob ?_
      rw [rows_mapBoard, rowlen_mapBoard]
      omega
  · refine Or.inr (And.intro ?_ (cellAtD_oob (by omega)))
    refine cellAtD_oob ?_
    rw [rows_mapBoard, rowlen_mapBoard]
    omega

theorem rows_createEmptyBoard (rs cs : Nat) : rows (createEmptyBoard rs cs) = rs := by
  unfold rows createEmptyBoard
  simp

theorem rowlen_createEmptyBoard (rs cs : Nat) {i : Nat} (hi : i < rs) :
    ((createEmptyBoard rs cs).getD i []).length = cs := by
  unfold createEmptyBoard
  rw [getD_map_range _ hi]
  simp

theorem cols_createEmptyBoard {rs : Nat} (cs : Nat) (h : 0 < rs) :
    cols (createEmptyBoard rs cs) = cs := rowlen_createEmptyBoard rs cs h

theorem WF_createEmptyBoard {rs cs : Nat} (hr : 0 < rs) (hc : 0 < cs) :
    WF (createEmptyBoard rs cs) := by
  refine ⟨by rwa [rows_createEmptyBoard], by rwa [cols_createEmptyBoard cs hr], ?_⟩
  intro i hi
  rw [rows_createEmptyBoard] at hi
  rw [rowlen_createEmptyBoard rs cs hi, cols_createEmptyBoard cs hr]

theorem cellAtD_createEmptyBoard {rs cs x y : Nat} (hx : x < cs) (hy : y < rs) :
    cellAtD (createEmptyBoard rs cs) x y =
      { x := x, y := y, isMine := false, isRevealed := false,
        isFlagged := false, adjacent := 0 } := by
  unfold cellAtD createEmptyBoard
  rw [getD_map_range _ hy, getD_map_range _ hx]

theorem createEmptyBoard_blank (rs cs x y : Nat) :
    (cellAtD (createEmptyBoard rs cs) x y).isMine = false ∧
      (cellAtD (createEmptyBoard rs cs) x y).isRevealed = false ∧
      (cellAtD (createEmptyBoard rs cs) x y).isFlagged = false ∧
      (cellAtD (createEmptyBoard rs cs) x y).adjacent = 0 := by
  by_cases hy : y < rs
  · by_cases hx : x < cs
    · rw [cellAtD_createEmptyBoard hx hy]
      exact ⟨rfl, rfl, rfl, rfl⟩
    · have hrl : ((createEmptyBoard rs cs).getD y []).length = cs :=
        rowlen_createEmptyBoard rs cs hy
      rw [cellAtD_oob (by rw [rows_createEmptyBoard, hrl]; omega)]
      exact ⟨rfl, rfl, rfl, rfl⟩
  · rw [cellAtD_oob (by rw [rows_createEmptyBoard]; omega)]
    exact ⟨rfl, rfl, rfl, rfl⟩

theorem mem_allCoords {rs cs : Nat} {p : Nat × Nat} :
    p ∈ allCoords rs cs ↔ p.1 < cs ∧ p.2 < rs := by
  unfold allCoords
  rw [List.mem_map]
  constructor
  · rintro ⟨i, hi, rfl⟩
    rw [List.mem_range] at hi
    have hcs : 0 < cs := by
      rcases Nat.eq_zero_or_pos cs with h0 | h0
      · subst h0
        omega
      · exact h0
    have hi2 : i < cs * rs := by
      rw [Nat.mul_comm cs rs]
      exact hi
    exact ⟨Nat.mod_lt _ hcs, Nat.div_lt_of_lt_mul hi2⟩
  · rintro ⟨h1, h2⟩
    refine ⟨p.2 * cs + p.1, ?_, ?_⟩
    · rw [List.mem_range]
      have h3 : p.2 * cs + cs = (p.2 + 1) * cs := by ring
      have h4 : (p.2 + 1) * cs ≤ rs * cs := Nat.mul_le_mul_right cs (by omega)
      omega
    · have hm : (p.2 * cs + p.1) % cs = p.1 := by
        rw [Nat.add_comm, Nat.mul_comm p.2 cs, Nat.add_mul_mod_self_left,
          Nat.mod_eq_of_lt h1]
      have hd : (p.2 * cs + p.1) / cs = p.2 := by
        rw [Nat.add_comm, Nat.mul_comm p.2 cs,
          Nat.add_mul_div_left _ _ (show 0 < cs by omega), Nat.div_eq_of_lt h1]
        omega
      rw [hm, hd]

theorem nodup_allCoords (rs cs : Nat) : (allCoords rs cs).Nodup := by
  refine List.Nodup.map ?_ (List.nodup_range _)
  intro i j hij
  simp only [Prod.mk.injEq] at hij
  obtain ⟨h1, h2⟩ := hij
  have hi := Nat.div_add_mod i cs
  have hj := Nat.div_add_mod j cs
  rw [h1, h2] at hi
  omega

theorem length_allCoords (rs cs : Nat) : (allCoords rs cs).length = rs * cs := by
  unfold allCoords
  rw [List.length_map, List.length_range]

theorem mem_nbrs_bounds {rs cs x y : Nat} {q : Nat × Nat}
    (h : q ∈ nbrs rs cs x y) : q.1 < cs ∧ q.2 < rs := by
  unfold nbrs at h
  rw [List.mem_filterMap] at h
  obtain ⟨d, _, hd⟩ := h
  simp only at hd
  by_cases hb : 0 ≤ (x : Int) + d.1 ∧ (x : Int) + d.1 < (cs : Int) ∧
      0 ≤ (y : Int) + d.2 ∧ (y : Int) + d.2 < (rs : Int)
  · rw [if_pos hb] at hd
    obtain ⟨h1, h2, h3, h4⟩ := hb
    cases hd
    constructor
    · simp only
      omega
    · simp only
      omega
  · rw [if_neg hb] at hd
    cases hd

theorem length_nbrs_le (rs cs x y : Nat) : (nbrs rs cs x y).length ≤ 8 :=
  Nat.le_trans (List.length_filterMap_le _ _) (by rfl)

/-! Grid normal form and coordinate-based counting. -/

theorem board_eq_grid {b : Board} (hwf : WF b) :
    b = (List.range (rows b)).map fun y =>
      (List.range (cols b)).map fun x => cellAtD b x y := by
  conv_lhs => rw [← map_getD_range b []]
  show (List.range (rows b)).map (fun y => b.getD y []) = _
  refine List.map_congr_left fun y hy => ?_
  rw [List.mem_range] at hy
  have hlen := hwf.2.2 y hy
  conv_lhs => rw [← map_getD_range (b.getD y []) default]
  rw [hlen]
  rfl

theorem countP_allCoords_rows (g : Nat × Nat → Bool) (rs cs : Nat) :
    (allCoords rs cs).countP g =
      ((List.range rs).map fun y =>
        (List.range cs).countP fun x => g (x, y)).sum := by
  induction rs with
  | zero => simp [allCoords]
  | succ n ih =>
    have hsplit : allCoords (n + 1) cs =
        allCoords n cs ++
          ((List.range cs).map fun x => n * cs + x).map
            fun i => ((i % cs : Nat), i / cs) := by
      unfold allCoords
      rw [show (n + 1) * cs = n * cs + cs by ring, List.range_add, List.map_append,
        List.map_map]
    rw [hsplit, List.countP_append, ih, List.range_succ, List.map_append,
      List.sum_append]
    have hblock : (((List.range cs).map fun x => n * cs + x).map
          fun i => ((i % cs : Nat), i / cs)).countP g =
        (List.range cs).countP fun x => g (x, n) := by
      rw [List.countP_map, List.countP_map]
      refine countP_congr_mem fun x hx => ?_
      rw [List.mem_range] at hx
      have hm : (n * cs + x) % cs = x := by
        rw [Nat.add_comm, Nat.mul_comm n cs, Nat.add_mul_mod_self_left,
          Nat.mod_eq_of_lt hx]
      have hd : (n * cs + x) / cs = n := by
        rw [Nat.add_comm, Nat.mul_comm n cs,
          Nat.add_mul_div_left _ _ (show 0 < cs by omega), Nat.div_eq_of_lt hx]
        omega
      show g ((n * cs + x) % cs, (n * cs + x) / cs) = g (x, n)
      rw [hm, hd]
    rw [hblock]
    simp

theorem countP_eq_coords (p : Cell → Bool) {b : Board} (hwf : WF b) :
    b.flatten.countP p =
      (allCoords (rows b) (cols b)).countP fun q => p (cellAtD b q.1 q.2) := by
  conv_lhs => rw [board_eq_grid hwf]
  rw [List.countP_flatten, List.map_map, countP_allCoords_rows]
  refine congrArg List.sum (List.map_congr_left fun y hy => ?_)
  show ((List.range (cols b)).map fun x => cellAtD b x y).countP p = _
  rw [List.countP_map]
  rfl


/-! Lemmas about the mine-placement loop. -/

/-- Candidate pick eligibility: not the excluded cell and not already a
mine (exactly the negation of the source's `continue` condition). -/
def eligPickB (b : Board) (initial : Int × Int) (p : Nat × Nat) : Bool :=
  !decide (((p.1 : Nat) : Int) = initial.1 ∧ ((p.2 : Nat) : Int) = initial.2) &&
    !(cellAtD b p.1 p.2).isMine

/-- Number of in-bounds cells a mine could still be placed on. -/
def availCount (b : Board) (initial : Int × Int) : Nat :=
  (allCoords (rows b) (cols b)).countP (eligPickB b initial)

theorem countP_not {α : Type} (p : α → Bool) (l : List α) :
    l.countP (fun a => !p a) + l.countP p = l.length := by
  induction l with
  | nil => rfl
  | cons a as ih =>
    rw [List.countP_cons, List.countP_cons]
    cases hpa : p a <;> simp [hpa] <;> omega

theorem placeLoop_frame :
    ∀ (picks : List (Nat × Nat)) (b : Board) (mines placed : Nat)
      (initial : Int × Int) (b' : Board),
      placeLoop b mines placed initial picks = some b' →
      rows b' = rows b ∧ (∀ i, (b'.getD i []).length = (b.getD i []).length) ∧
        ∀ x y, (cellAtD b' x y).isRevealed = (cellAtD b x y).isRevealed ∧
          (cellAtD b' x y).isFlagged = (cellAtD b x y).isFlagged ∧
          (cellAtD b' x y).adjacent = (cellAtD b x y).adjacent ∧
          ((cellAtD b x y).isMine = true → (cellAtD b' x y).isMine = true) := by
  intro picks
  induction picks with
  | nil =>
    intro b mines placed initial b' h
    unfold placeLoop at h
    by_cases hmp : mines ≤ placed
    · rw [if_pos hmp] at h
      cases h
      exact ⟨rfl, fun i => rfl, fun x y => ⟨rfl, rfl, rfl, fun hm => hm⟩⟩
    · rw [if_neg hmp] at h
      cases h
  | cons p rest ih =>
    intro b mines placed initial b' h
    obtain ⟨px, py⟩ := p
    unfold placeLoop at h
    by_cases hmp : mines ≤ placed
    · rw [if_pos hmp] at h
      cases h
      exact ⟨rfl, fun i => rfl, fun x y => ⟨rfl, rfl, rfl, fun hm => hm⟩⟩
    · rw [if_neg hmp] at h
      by_cases hrej : ((px : Int) = initial.1 ∧ (py : Int) = initial.2) ∨
          (cellAtD b px py).isMine = true
      · rw [if_pos hrej] at h
        exact ih b mines placed initial b' h
      · rw [if_neg hrej] at h
        obtain ⟨hr, hl, hcell⟩ := ih _ mines (placed + 1) initial b' h
        refine ⟨?_, ?_, ?_⟩
        · rw [hr, rows_updateCell]
        · intro i
          rw [hl i, rowlen_updateCell]
        · intro x y
          obtain ⟨h1, h2, h3, h4⟩ := hcell x y
          rcases cellAtD_updateCell_cases b px py
              (fun c => { c with isMine := true }) x y with hc | hc
          · rw [hc] at h1 h2 h3 h4
            exact ⟨h1, h2, h3, h4⟩
          · obtain ⟨hx1, hy1, heq⟩ := hc
            rw [heq] at h1 h2 h3 h4
            exact ⟨h1, h2, h3, fun hm => h4 rfl⟩

theorem countMines_setMine {b : Board} {px py : Nat} (hwf : WF b)
    (hpx : px < cols b) (hpy : py < rows b)
    (hnm : (cellAtD b px py).isMine = false) :
    countMines (updateCell b px py fun c => { c with isMine := true }) =
      countMines b + 1 := by
  have hwf1 : WF (updateCell b px py fun c => { c with isMine := true }) :=
    WF_updateCell _ _ _ hwf
  unfold countMines
  rw [countP_eq_coords _ hwf1, countP_eq_coords _ hwf, rows_updateCell,
    cols_updateCell]
  refine countP_flip_one (c := (px, py)) (nodup_allCoords _ _)
    (mem_allCoords.mpr ⟨hpx, hpy⟩) ?_ hnm ?_
  · have hsel := cellAtD_updateCell_self (b := b) (x := px) (y := py)
      (fun c => { c with isMine := true }) hpy (by rw [hwf.2.2 py hpy]; exact hpx)
    rw [hsel]
  · intro a ha
    have hne : ¬(a.1 = px ∧ a.2 = py) := by
      intro hcon
      exact ha (Prod.ext hcon.1 hcon.2)
    rw [cellAtD_updateCell_ne _ hne]

theorem availCount_setMine {b : Board} {px py : Nat} {initial : Int × Int}
    (hwf : WF b) (hpx : px < cols b) (hpy : py < rows b)
    (hnm : (cellAtD b px py).isMine = false)
    (hni : ¬(((px : Nat) : Int) = initial.1 ∧ ((py : Nat) : Int) = initial.2)) :
    availCount b initial =
      availCount (updateCell b px py fun c => { c with isMine := true })
        initial + 1 := by
  unfold availCount
  rw [rows_updateCell, cols_updateCell]
  refine countP_flip_one (c := (px, py)) (nodup_allCoords _ _)
    (mem_allCoords.mpr ⟨hpx, hpy⟩) ?_ ?_ ?_
  · unfold eligPickB
    rw [hnm]
    simp [hni]
  · unfold eligPickB
    have hsel := cellAtD_updateCell_self (b := b) (x := px) (y := py)
      (fun c => { c with isMine := true }) hpy (by rw [hwf.2.2 py hpy]; exact hpx)
    rw [hsel]
    simp
  · intro a ha
    have hne : ¬(a.1 = px ∧ a.2 = py) := by
      intro hcon
      exact ha (Prod.ext hcon.1 hcon.2)
    unfold eligPickB
    rw [cellAtD_updateCell_ne _ hne]

theorem placeLoop_count :
    ∀ (picks : List (Nat × Nat)) (b : Board) (mines placed : Nat)
      (initial : Int × Int) (b' : Board),
      WF b → (∀ p ∈ picks, p.1 < cols b ∧ p.2 < rows b) →
      placeLoop b mines placed initial picks = some b' →
      countMines b' = countMines b + (mines - placed) ∧ WF b' := by
  intro picks
  induction picks with
  | nil =>
    intro b mines placed initial b' hwf hpk h
    unfold placeLoop at h
    by_cases hmp : mines ≤ placed
    · rw [if_pos hmp] at h
      cases h
      exact ⟨by omega, hwf⟩
    · rw [if_neg hmp] at h
      cases h
  | cons p rest ih =>
    intro b mines placed initial b' hwf hpk h
    obtain ⟨px, py⟩ := p
    have hhd := hpk (px, py) (List.mem_cons_self _ _)
    have htl : ∀ q ∈ rest, q.1 < cols b ∧ q.2 < rows b :=
      fun q hq => hpk q (List.mem_cons_of_mem _ hq)
    unfold placeLoop at h
    by_cases hmp : mines ≤ placed
    · rw [if_pos hmp] at h
      cases h
      exact ⟨by omega, hwf⟩
    · rw [if_neg hmp] at h
      by_cases hrej : ((px : Int) = initial.1 ∧ (py : Int) = initial.2) ∨
          (cellAtD b px py).isMine = true
      · rw [if_pos hrej] at h
        exact ih b mines placed initial b' hwf htl h
      · rw [if_neg hrej] at h
        have hnm : (cellAtD b px py).isMine = false := by
          cases hmine : (cellAtD b px py).isMine
          · rfl
          · exact absurd (Or.inr hmine) hrej
        have hwf1 : WF (updateCell b px py fun c => { c with isMine := true }) :=
          WF_updateCell _ _ _ hwf
        have htl1 : ∀ q ∈ rest,
            q.1 < cols (updateCell b px py fun c => { c with isMine := true }) ∧
            q.2 < rows (updateCell b px py fun c => { c with isMine := true }) := by
          intro q hq
          rw [cols_updateCell, rows_updateCell]
          exact htl q hq
        obtain ⟨hcnt, hwf2⟩ := ih _ mines (placed + 1) initial b' hwf1 htl1 h
        rw [countMines_setMine hwf hhd.1 hhd.2 hnm] at hcnt
        exact ⟨by omega, hwf2⟩

theorem placeLoop_bound :
    ∀ (picks : List (Nat × Nat)) (b : Board) (mines placed : Nat)
      (initial : Int × Int) (b' : Board),
      WF b → (∀ p ∈ picks, p.1 < cols b ∧ p.2 < rows b) →
      placeLoop b mines placed initial picks = some b' →
      mines ≤ placed + availCount b initial := by
  intro picks
  induction picks with
  | nil =>
    intro b mines placed initial b' hwf hpk h
    unfold placeLoop at h
    by_cases hmp : mines ≤ placed
    · omega
    · rw [if_neg hmp] at h
      cases h
  | cons p rest ih =>
    intro b mines placed initial b' hwf hpk h
    obtain ⟨px, py⟩ := p
    have hhd := hpk (px, py) (List.mem_cons_self _ _)
    have htl : ∀ q ∈ rest, q.1 < cols b ∧ q.2 < rows b :=
      fun q hq => hpk q (List.mem_cons_of_mem _ hq)
    unfold placeLoop at h
    by_cases hmp : mines ≤ placed
    · omega
    · rw [if_neg hmp] at h
      by_cases hrej : ((px : Int) = initial.1 ∧ (py : Int) = initial.2) ∨
          (cellAtD b px py).isMine = true
      · rw [if_pos hrej] at h
        exact ih b mines placed initial b' hwf htl h
      · rw [if_neg hrej] at h
        have hnm : (cellAtD b px py).isMine = false := by
          cases hmine : (cellAtD b px py).isMine
          · rfl
          · exact absurd (Or.inr hmine) hrej
        have hni : ¬(((px : Nat) : Int) = initial.1 ∧
            ((py : Nat) : Int) = initial.2) := fun hcon => hrej (Or.inl hcon)
        have hwf1 : WF (updateCell b px py fun c => { c with isMine := true }) :=
          WF_updateCell _ _ _ hwf
        have htl1 : ∀ q ∈ rest,
            q.1 < cols (updateCell b px py fun c => { c with isMine := true }) ∧
            q.2 < rows (updateCell b px py fun c => { c with isMine := true }) := by
          intro q hq
          rw [cols_updateCell, rows_updateCell]
          exact htl q hq
        have hav := availCount_setMine hwf hhd.1 hhd.2 hnm hni
        have hrec := ih _ mines (placed + 1) initial b' hwf1 htl1 h
        have hbr : availCount (updateCell b (px, py).1 (px, py).2 fun c =>
            { c with isMine := true }) initial =
            availCount (updateCell b px py fun c => { c with isMine := true })
              initial := rfl
        omega

theorem placeLoop_isSome :
    ∀ (picks : List (Nat × Nat)) (b : Board) (mines placed : Nat)
      (initial : Int × Int),
      WF b → (∀ p ∈ picks, p.1 < cols b ∧ p.2 < rows b) → picks.Nodup →
      mines ≤ placed + picks.countP (eligPickB b initial) →
      (placeLoop b mines placed initial picks).isSome = true := by
  intro picks
  induction picks with
  | nil =>
    intro b mines placed initial hwf hpk hnd hcnt
    unfold placeLoop
    rw [if_pos (by simpa using hcnt)]
    rfl
  | cons p rest ih =>
    intro b mines placed initial hwf hpk hnd hcnt
    obtain ⟨px, py⟩ := p
    have hhd := hpk (px, py) (List.mem_cons_self _ _)
    have htl : ∀ q ∈ rest, q.1 < cols b ∧ q.2 < rows b :=
      fun q hq => hpk q (List.mem_cons_of_mem _ hq)
    unfold placeLoop
    by_cases hmp : mines ≤ placed
    · rw [if_pos hmp]
      rfl
    · rw [if_neg hmp]
      by_cases hrej : ((px : Int) = initial.1 ∧ (py : Int) = initial.2) ∨
          (cellAtD b px py).isMine = true
      · rw [if_pos hrej]
        have hhdp : eligPickB b initial (px, py) = false := by
          unfold eligPickB
          rcases hrej with hi | hm
          · simp [hi]
          · simp [hm]
        rw [List.countP_cons_of_neg _ _ (by rw [hhdp]; exact Bool.false_ne_true)]
          at hcnt
        exact ih b mines placed initial hwf htl (List.nodup_cons.mp hnd).2 hcnt
      · rw [if_neg hrej]
        have hnm : (cellAtD b px py).isMine = false := by
          cases hmine : (cellAtD b px py).isMine
          · rfl
          · exact absurd (Or.inr hmine) hrej
        have hni : ¬(((px : Nat) : Int) = initial.1 ∧
            ((py : Nat) : Int) = initial.2) := fun hcon => hrej (Or.inl hcon)
        have hhdp : eligPickB b initial (px, py) = true := by
          unfold eligPickB
          rw [hnm]
          simp [hni]
        have hnotin : (px, py) ∉ rest := (List.nodup_cons.mp hnd).1
        have hsame : rest.countP
            (eligPickB (updateCell b px py fun c => { c with isMine := true })
              initial) = rest.countP (eligPickB b initial) := by
          refine countP_congr_mem fun q hq => ?_
          have hne : ¬(q.1 = px ∧ q.2 = py) := by
            intro hcon
            have hqe : q = (px, py) := Prod.ext hcon.1 hcon.2
            exact hnotin (hqe ▸ hq)
          unfold eligPickB
          rw [cellAtD_updateCell_ne _ hne]
        have hwf1 : WF (updateCell b px py fun c => { c with isMine := true }) :=
          WF_updateCell _ _ _ hwf
        have htl1 : ∀ q ∈ rest,
            q.1 < cols (updateCell b px py fun c => { c with isMine := true }) ∧
            q.2 < rows (updateCell b px py fun c => { c with isMine := true }) := by
          intro q hq
          rw [cols_updateCell, rows_updateCell]
          exact htl q hq
        rw [List.countP_cons_of_pos _ _ hhdp] at hcnt
        refine ih _ mines (placed + 1) initial hwf1 htl1
          (List.nodup_cons.mp hnd).2 ?_
        have hbr : rest.countP (eligPickB (updateCell b (px, py).1 (px, py).2
            fun c => { c with isMine := true }) initial) =
            rest.countP (eligPickB (updateCell b px py
            fun c => { c with isMine := true }) initial) := rfl
        rw [hbr, hsame]
        omega

theorem placeLoop_initial_mine :
    ∀ (picks : List (Nat × Nat)) (b : Board) (mines placed : Nat)
      (nx ny : Nat) (b' : Board),
      placeLoop b mines placed ((nx : Int), (ny : Int)) picks = some b' →
      (cellAtD b' nx ny).isMine = (cellAtD b nx ny).isMine := by
  intro picks
  induction picks with
  | nil =>
    intro b mines placed nx ny b' h
    unfold placeLoop at h
    by_cases hmp : mines ≤ placed
    · rw [if_pos hmp] at h
      cases h
      rfl
    · rw [if_neg hmp] at h
      cases h
  | cons p rest ih =>
    intro b mines placed nx ny b' h
    obtain ⟨px, py⟩ := p
    unfold placeLoop at h
    by_cases hmp : mines ≤ placed
    · rw [if_pos hmp] at h
      cases h
      rfl
    · rw [if_neg hmp] at h
      by_cases hrej : ((px : Int) = ((nx : Int), (ny : Int)).1 ∧
          (py : Int) = ((nx : Int), (ny : Int)).2) ∨
          (cellAtD b px py).isMine = true
      · rw [if_pos hrej] at h
        exact ih b mines placed nx ny b' h
      · rw [if_neg hrej] at h
        have hstep := ih _ mines (placed + 1) nx ny b' h
        have hne : ¬(nx = px ∧ ny = py) := by
          intro hcon
          refine hrej (Or.inl ?_)
          rw [hcon.1, hcon.2]
          exact ⟨rfl, rfl⟩
        rw [hstep, cellAtD_updateCell_ne _ hne]

theorem availCount_mineFree {b : Board} {nx ny : Nat}
    (hmf : ∀ x y, (cellAtD b x y).isMine = false)
    (hnx : nx < cols b) (hny : ny < rows b) :
    availCount b ((nx : Int), (ny : Int)) = rows b * cols b - 1 := by
  unfold availCount
  have h1 : ∀ p ∈ allCoords (rows b) (cols b),
      eligPickB b ((nx : Int), (ny : Int)) p = !decide (p = (nx, ny)) := by
    intro p hp
    unfold eligPickB
    rw [hmf p.1 p.2]
    by_cases hpe : p = (nx, ny)
    · subst hpe
      simp
    · have hne2 : ¬(((p.1 : Nat) : Int) = ((nx : Nat) : Int) ∧
          ((p.2 : Nat) : Int) = ((ny : Nat) : Int)) := by
        intro hcon
        refine hpe (Prod.ext ?_ ?_)
        · exact_mod_cast hcon.1
        · exact_mod_cast hcon.2
      simp [hpe, hne2]
      by_cases h1 : p.1 = nx
      · by_cases h2 : p.2 = ny
        · exact absurd (Prod.ext h1 h2) hpe
        · exact Or.inr h2
      · exact Or.inl h1
  rw [countP_congr_mem h1]
  have h2 := countP_not (fun p => decide (p = (nx, ny)))
    (allCoords (rows b) (cols b))
  have h3 : (allCoords (rows b) (cols b)).countP
      (fun p => decide (p = (nx, ny))) = 1 :=
    countP_single_mem (nodup_allCoords _ _) (mem_allCoords.mpr ⟨hnx, hny⟩)
  rw [length_allCoords] at h2
  omega

/-! Lemmas about the adjacency pass. -/

theorem rows_computeAdjacency (b : Board) :
    rows (computeAdjacency b) = rows b := by
  show (computeAdjacency b).length = rows b
  unfold computeAdjacency
  rw [List.length_map, List.length_range]

theorem rowlen_computeAdjacency (b : Board) {i : Nat} (hi : i < rows b) :
    ((computeAdjacency b).getD i []).length = cols b := by
  unfold computeAdjacency
  rw [getD_map_range _ hi]
  rw [List.length_map, List.length_range]

theorem WF_computeAdjacency {b : Board} (hwf : WF b) :
    WF (computeAdjacency b) := by
  have h0 : cols (computeAdjacency b) = cols b :=
    rowlen_computeAdjacency b hwf.1
  refine ⟨by rw [rows_computeAdjacency]; exact hwf.1,
    by rw [h0]; exact hwf.2.1, ?_⟩
  intro i hi
  rw [rows_computeAdjacency] at hi
  rw [rowlen_computeAdjacency b hi, h0]

theorem cellAtD_computeAdjacency {b : Board} {x y : Nat}
    (hx : x < cols b) (hy : y < rows b) :
    cellAtD (computeAdjacency b) x y =
      (if (cellAtD b x y).isMine then cellAtD b x y
       else { cellAtD b x y with adjacent := neighborMineCount b x y }) := by
  unfold cellAtD computeAdjacency
  rw [getD_map_range _ hy, getD_map_range _ hx]
  rfl


/-! Lemmas about the flood-fill loop: unfolding, pop mechanics, frame. -/

theorem revealLoop_zero (sel : List (Nat × Nat) → Nat) (b : Board)
    (frontier visited : List (Nat × Nat)) :
    revealLoop sel b frontier visited 0 = b := rfl

theorem revealLoop_nil (sel : List (Nat × Nat) → Nat) (b : Board)
    (visited : List (Nat × Nat)) (fuel : Nat) :
    revealLoop sel b [] visited (fuel + 1) = b := rfl

theorem revealLoop_cons (sel : List (Nat × Nat) → Nat) (b : Board)
    (q : Nat × Nat) (qs visited : List (Nat × Nat)) (fuel : Nat) :
    revealLoop sel b (q :: qs) visited (fuel + 1) =
      (if popCoord sel (q :: qs) ∈ visited then
        revealLoop sel b (popRest sel (q :: qs)) visited fuel
      else if inB b (popCoord sel (q :: qs)) then
        (if (cellAtD b (popCoord sel (q :: qs)).1
              (popCoord sel (q :: qs)).2).isRevealed = true ∨
            (cellAtD b (popCoord sel (q :: qs)).1
              (popCoord sel (q :: qs)).2).isFlagged = true then
          revealLoop sel b (popRest sel (q :: qs))
            (popCoord sel (q :: qs) :: visited) fuel
        else if (cellAtD b (popCoord sel (q :: qs)).1
              (popCoord sel (q :: qs)).2).adjacent = 0 ∧
            (cellAtD b (popCoord sel (q :: qs)).1
              (popCoord sel (q :: qs)).2).isMine = false then
          revealLoop sel
            (updateCell b (popCoord sel (q :: qs)).1 (popCoord sel (q :: qs)).2
              fun cc => { cc with isRevealed := true })
            (popRest sel (q :: qs) ++
              nbrs (rows b) (cols b) (popCoord sel (q :: qs)).1
                (popCoord sel (q :: qs)).2)
            (popCoord sel (q :: qs) :: visited) fuel
        else
          revealLoop sel
            (updateCell b (popCoord sel (q :: qs)).1 (popCoord sel (q :: qs)).2
              fun cc => { cc with isRevealed := true })
            (popRest sel (q :: qs)) (popCoord sel (q :: qs) :: visited) fuel)
      else revealLoop sel b (popRest sel (q :: qs))
        (popCoord sel (q :: qs) :: visited) fuel) := rfl

theorem popCoord_mem {sel : List (Nat × Nat) → Nat} {q : Nat × Nat}
    {qs : List (Nat × Nat)} : popCoord sel (q :: qs) ∈ q :: qs := by
  unfold popCoord
  exact getD_mem (Nat.mod_lt _ (by simp)) _

theorem length_popRest {sel : List (Nat × Nat) → Nat} {q : Nat × Nat}
    {qs : List (Nat × Nat)} :
    (popRest sel (q :: qs)).length = qs.length := by
  unfold popRest
  rw [List.length_eraseIdx]
  rw [if_pos (Nat.mod_lt _ (by simp))]
  rfl

theorem popRest_subset {sel : List (Nat × Nat) → Nat} {q p : Nat × Nat}
    {qs : List (Nat × Nat)} (h : p ∈ popRest sel (q :: qs)) : p ∈ q :: qs :=
  List.mem_of_mem_eraseIdx h

theorem mem_pop_cases {sel : List (Nat × Nat) → Nat} {q p : Nat × Nat}
    {qs : List (Nat × Nat)} (h : p ∈ q :: qs) :
    p = popCoord sel (q :: qs) ∨ p ∈ popRest sel (q :: qs) := by
  by_cases hp : p = popCoord sel (q :: qs)
  · exact Or.inl hp
  · exact Or.inr (mem_eraseIdx_of_ne h (0, 0) hp)

theorem unvis_cons_le (b : Board) (c : Nat × Nat)
    (visited : List (Nat × Nat)) : unvis b (c :: visited) ≤ unvis b visited := by
  unfold unvis
  refine countP_le_countP _ fun a ha => ?_
  simp only [Bool.not_eq_true', decide_eq_false_iff_not] at ha ⊢
  intro hmem
  exact ha (List.mem_cons_of_mem _ hmem)

theorem unvis_cons_lt {b : Board} {c : Nat × Nat}
    {visited : List (Nat × Nat)} (hin : inB b c) (hnv : c ∉ visited) :
    unvis b (c :: visited) + 1 ≤ unvis b visited := by
  unfold unvis
  have hlt : ((allCoords (rows b) (cols b)).countP
        fun p => !decide (p ∈ c :: visited)) <
      ((allCoords (rows b) (cols b)).countP fun p => !decide (p ∈ visited)) := by
    refine countP_lt_countP (c := c)
      (mem_allCoords.mpr ⟨hin.1, hin.2⟩) ?_ ?_ ?_
    · simp [hnv]
    · simp
    · intro a ha
      simp only [Bool.not_eq_true', decide_eq_false_iff_not] at ha ⊢
      intro hmem
      exact ha (List.mem_cons_of_mem _ hmem)
  omega

theorem revealLoop_frame (sel : List (Nat × Nat) → Nat) :
    ∀ (fuel : Nat) (b : Board) (frontier visited : List (Nat × Nat)),
      rows (revealLoop sel b frontier visited fuel) = rows b ∧
      (∀ i, ((revealLoop sel b frontier visited fuel).getD i []).length =
        (b.getD i []).length) ∧
      ∀ x y,
        (cellAtD (revealLoop sel b frontier visited fuel) x y).isMine =
          (cellAtD b x y).isMine ∧
        (cellAtD (revealLoop sel b frontier visited fuel) x y).isFlagged =
          (cellAtD b x y).isFlagged ∧
        (cellAtD (revealLoop sel b frontier visited fuel) x y).adjacent =
          (cellAtD b x y).adjacent ∧
        ((cellAtD b x y).isRevealed = true →
          (cellAtD (revealLoop sel b frontier visited fuel) x y).isRevealed =
            true) := by
  intro fuel
  induction fuel with
  | zero =>
    intro b frontier visited
    rw [revealLoop_zero]
    exact ⟨rfl, fun i => rfl, fun x y => ⟨rfl, rfl, rfl, fun h => h⟩⟩
  | succ n ih =>
    intro b frontier visited
    rcases frontier with _ | ⟨q, qs⟩
    · rw [revealLoop_nil]
      exact ⟨rfl, fun i => rfl, fun x y => ⟨rfl, rfl, rfl, fun h => h⟩⟩
    · rw [revealLoop_cons]
      by_cases hvis : popCoord sel (q :: qs) ∈ visited
      · rw [if_pos hvis]
        exact ih b _ visited
      · rw [if_neg hvis]
        by_cases hinb : inB b (popCoord sel (q :: qs))
        · rw [if_pos hinb]
          by_cases hskip : (cellAtD b (popCoord sel (q :: qs)).1
                (popCoord sel (q :: qs)).2).isRevealed = true ∨
              (cellAtD b (popCoord sel (q :: qs)).1
                (popCoord sel (q :: qs)).2).isFlagged = true
          · rw [if_pos hskip]
            exact ih b _ _
          · rw [if_neg hskip]
            have hcomp : ∀ (fr vis : List (Nat × Nat)),
                rows (revealLoop sel
                  (updateCell b (popCoord sel (q :: qs)).1
                    (popCoord sel (q :: qs)).2
                    fun cc => { cc with isRevealed := true }) fr vis n) = rows b ∧
                (∀ i, ((revealLoop sel
                  (updateCell b (popCoord sel (q :: qs)).1
                    (popCoord sel (q :: qs)).2
                    fun cc => { cc with isRevealed := true }) fr vis n).getD i
                      []).length = (b.getD i []).length) ∧
                ∀ x y,
                  (cellAtD (revealLoop sel
                    (updateCell b (popCoord sel (q :: qs)).1
                      (popCoord sel (q :: qs)).2
                      fun cc => { cc with isRevealed := true }) fr vis n) x
                        y).isMine = (cellAtD b x y).isMine ∧
                  (cellAtD (revealLoop sel
                    (updateCell b (popCoord sel (q :: qs)).1
                      (popCoord sel (q :: qs)).2
                      fun cc => { cc with isRevealed := true }) fr vis n) x
                        y).isFlagged = (cellAtD b x y).isFlagged ∧
                  (cellAtD (revealLoop sel
                    (updateCell b (popCoord sel (q :: qs)).1
                      (popCoord sel (q :: qs)).2
                      fun cc => { cc with isRevealed := true }) fr vis n) x
                        y).adjacent = (cellAtD b x y).adjacent ∧
                  ((cellAtD b x y).isRevealed = true →
                    (cellAtD (revealLoop sel
                      (updateCell b (popCoord sel (q :: qs)).1
                        (popCoord sel (q :: qs)).2
                        fun cc => { cc with isRevealed := true }) fr vis n) x
                          y).isRevealed = true) := by
              intro fr vis
              obtain ⟨h1, h2, h3⟩ := ih
                (updateCell b (popCoord sel (q :: qs)).1
                  (popCoord sel (q :: qs)).2
                  fun cc => { cc with isRevealed := true }) fr vis
              refine ⟨by rw [h1, rows_updateCell], ?_, ?_⟩
              · intro i
                rw [h2 i, rowlen_updateCell]
              · intro x y
                obtain ⟨hm, hf, ha, hr⟩ := h3 x y
                rcases cellAtD_updateCell_cases b (popCoord sel (q :: qs)).1
                    (popCoord sel (q :: qs)).2
                    (fun cc => { cc with isRevealed := true }) x y with hc | hc
                · rw [hc] at hm hf ha hr
                  exact ⟨hm, hf, ha, hr⟩
                · obtain ⟨hx1, hy1, heq⟩ := hc
                  rw [heq] at hm hf ha hr
                  exact ⟨hm, hf, ha, fun hrev => hr rfl⟩
            by_cases hexp : (cellAtD b (popCoord sel (q :: qs)).1
                  (popCoord sel (q :: qs)).2).adjacent = 0 ∧
                (cellAtD b (popCoord sel (q :: qs)).1
                  (popCoord sel (q :: qs)).2).isMine = false
            · rw [if_pos hexp]
              exact hcomp _ _
            · rw [if_neg hexp]
              exact hcomp _ _
        · rw [if_neg hinb]
          exact ih b _ _

theorem revealLoop_new_unflagged (sel : List (Nat × Nat) → Nat) :
    ∀ (fuel : Nat) (b : Board) (frontier visited : List (Nat × Nat)) (x y : Nat),
      (cellAtD (revealLoop sel b frontier visited fuel) x y).isRevealed = true →
      (cellAtD b x y).isRevealed = true ∨ (cellAtD b x y).isFlagged = false := by
  intro fuel
  induction fuel with
  | zero =>
    intro b frontier visited x y h
    rw [revealLoop_zero] at h
    exact Or.inl h
  | succ n ih =>
    intro b frontier visited x y h
    rcases frontier with _ | ⟨q, qs⟩
    · rw [revealLoop_nil] at h
      exact Or.inl h
    · rw [revealLoop_cons] at h
      by_cases hvis : popCoord sel (q :: qs) ∈ visited
      · rw [if_pos hvis] at h
        exact ih b _ _ x y h
      · rw [if_neg hvis] at h
        by_cases hinb : inB b (popCoord sel (q :: qs))
        · rw [if_pos hinb] at h
          by_cases hskip : (cellAtD b (popCoord sel (q :: qs)).1
                (popCoord sel (q :: qs)).2).isRevealed = true ∨
              (cellAtD b (popCoord sel (q :: qs)).1
                (popCoord sel (q :: qs)).2).isFlagged = true
          · rw [if_pos hskip] at h
            exact ih b _ _ x y h
          · rw [if_neg hskip] at h
            have hflag : (cellAtD b (popCoord sel (q :: qs)).1
                (popCoord sel (q :: qs)).2).isFlagged = false := by
              rcases not_or.mp hskip with ⟨h1, h2⟩
              cases hfl : (cellAtD b (popCoord sel (q :: qs)).1
                  (popCoord sel (q :: qs)).2).isFlagged
              · rfl
              · exact absurd hfl h2
            have hstep : ∀ (fr vis : List (Nat × Nat)),
                (cellAtD (revealLoop sel
                  (updateCell b (popCoord sel (q :: qs)).1
                    (popCoord sel (q :: qs)).2
                    fun cc => { cc with isRevealed := true }) fr vis n) x
                      y).isRevealed = true →
                (cellAtD b x y).isRevealed = true ∨
                  (cellAtD b x y).isFlagged = false := by
              intro fr vis hrec
              rcases ih _ fr vis x y hrec with hrev | hfl
              · rcases cellAtD_updateCell_cases b (popCoord sel (q :: qs)).1
                    (popCoord sel (q :: qs)).2
                    (fun cc => { cc with isRevealed := true }) x y with hc | hc
                · rw [hc] at hrev
                  exact Or.inl hrev
                · obtain ⟨hx1, hy1, heq⟩ := hc
                  refine Or.inr ?_
                  rw [hx1, hy1]
                  exact hflag
              · rcases cellAtD_updateCell_cases b (popCoord sel (q :: qs)).1
                    (popCoord sel (q :: qs)).2
                    (fun cc => { cc with isRevealed := true }) x y with hc | hc
                · rw [hc] at hfl
                  exact Or.inr hfl
                · obtain ⟨hx1, hy1, heq⟩ := hc
                  refine Or.inr ?_
                  rw [hx1, hy1]
                  exact hflag
            by_cases hexp : (cellAtD b (popCoord sel (q :: qs)).1
                  (popCoord sel (q :: qs)).2).adjacent = 0 ∧
                (cellAtD b (popCoord sel (q :: qs)).1
                  (popCoord sel (q :: qs)).2).isMine = false
            · rw [if_pos hexp] at h
              exact hstep _ _ h
            · rw [if_neg hexp] at h
              exact hstep _ _ h
        · rw [if_neg hinb] at h
          exact ih b _ _ x y h


theorem reveal_invariant_terminal (b0 : Board) (s : Nat × Nat)
    (b : Board) (visited : List (Nat × Nat))
    (h2 : ∀ p ∈ visited, inB b0 p ∧ Reaches b0 s p)
    (h3r : ∀ x y, (cellAtD b x y).isRevealed = true ↔
      ((cellAtD b0 x y).isRevealed = true ∨
        ((x, y) ∈ visited ∧ eligible b0 (x, y))))
    (h4 : s ∈ visited)
    (h5 : ∀ p ∈ visited, expanding b0 p →
      ∀ q ∈ nbrs (rows b0) (cols b0) p.1 p.2, q ∈ visited) :
    ∀ x y, (cellAtD b x y).isRevealed = true ↔
      ((cellAtD b0 x y).isRevealed = true ∨
        (Reaches b0 s (x, y) ∧ eligible b0 (x, y))) := by
  have hsub : ∀ p, Reaches b0 s p → p ∈ visited := by
    intro p hp
    induction hp with
    | refl => exact h4
    | step hc he hd ih => exact h5 _ ih he _ hd
  intro x y
  rw [h3r x y]
  constructor
  · rintro (hrev | ⟨hmem, helig⟩)
    · exact Or.inl hrev
    · exact Or.inr ⟨(h2 _ hmem).2, helig⟩
  · rintro (hrev | ⟨hreach, helig⟩)
    · exact Or.inl hrev
    · exact Or.inr ⟨hsub _ hreach, helig⟩

theorem revealLoop_master (b0 : Board) (s : Nat × Nat) (hwf : WF b0) :
    ∀ (fuel : Nat) (sel : List (Nat × Nat) → Nat) (b : Board)
      (frontier visited : List (Nat × Nat)),
      rows b = rows b0 → cols b = cols b0 →
      (∀ i, (b.getD i []).length = (b0.getD i []).length) →
      (∀ p ∈ frontier, inB b0 p ∧ Reaches b0 s p) →
      (∀ p ∈ visited, inB b0 p ∧ Reaches b0 s p) →
      (∀ x y, (cellAtD b x y).isMine = (cellAtD b0 x y).isMine) →
      (∀ x y, (cellAtD b x y).isFlagged = (cellAtD b0 x y).isFlagged) →
      (∀ x y, (cellAtD b x y).adjacent = (cellAtD b0 x y).adjacent) →
      (∀ x y, (cellAtD b x y).isRevealed = true ↔
        ((cellAtD b0 x y).isRevealed = true ∨
          ((x, y) ∈ visited ∧ eligible b0 (x, y)))) →
      (s ∈ frontier ∨ s ∈ visited) →
      (∀ p ∈ visited, expanding b0 p →
        ∀ q ∈ nbrs (rows b0) (cols b0) p.1 p.2, q ∈ frontier ∨ q ∈ visited) →
      9 * unvis b0 visited + frontier.length ≤ fuel →
      ∀ x y,
        (cellAtD (revealLoop sel b frontier visited fuel) x y).isRevealed =
          true ↔
        ((cellAtD b0 x y).isRevealed = true ∨
          (Reaches b0 s (x, y) ∧ eligible b0 (x, y))) := by
  intro fuel
  induction fuel with
  | zero =>
    intro sel b frontier visited hrows hcols hlen h1 h2 h3m h3f h3a h3r h4 h5
      hfuel
    have hfr : frontier = [] := by
      cases frontier with
      | nil => rfl
      | cons a as =>
        rw [List.length_cons] at hfuel
        omega
    subst hfr
    rw [revealLoop_zero]
    have h4v : s ∈ visited := by
      rcases h4 with h | h
      · exact absurd h (List.not_mem_nil s)
      · exact h
    refine reveal_invariant_terminal b0 s b visited h2 h3r h4v ?_
    intro p hp he q hq
    rcases h5 p hp he q hq with h | h
    · exact absurd h (List.not_mem_nil q)
    · exact h
  | succ n ih =>
    intro sel b frontier visited hrows hcols hlen h1 h2 h3m h3f h3a h3r h4 h5
      hfuel
    rcases frontier with _ | ⟨qh, qs⟩
    · rw [revealLoop_nil]
      have h4v : s ∈ visited := by
        rcases h4 with h | h
        · exact absurd h (List.not_mem_nil s)
        · exact h
      refine reveal_invariant_terminal b0 s b visited h2 h3r h4v ?_
      intro p hp he q hq
      rcases h5 p hp he q hq with h | h
      · exact absurd h (List.not_mem_nil q)
      · exact h
    · rw [revealLoop_cons]
      set c := popCoord sel (qh :: qs) with hcdef
      have hcmem : c ∈ qh :: qs := popCoord_mem
      obtain ⟨hcin0, hcreach⟩ := h1 c hcmem
      have hlqs : (popRest sel (qh :: qs)).length = qs.length := length_popRest
      rw [List.length_cons] at hfuel
      by_cases hvis : c ∈ visited
      · rw [if_pos hvis]
        refine ih sel b (popRest sel (qh :: qs)) visited hrows hcols hlen
          (fun p hp => h1 p (popRest_subset hp)) h2 h3m h3f h3a h3r ?_ ?_ ?_
        · rcases h4 with hs | hs
          · rcases mem_pop_cases hs with he | he
            · refine Or.inr ?_
              rw [he, ← hcdef]
              exact hvis
            · exact Or.inl he
          · exact Or.inr hs
        · intro p hp he q hq
          rcases h5 p hp he q hq with hf | hf
          · rcases mem_pop_cases hf with he2 | he2
            · refine Or.inr ?_
              rw [he2, ← hcdef]
              exact hvis
            · exact Or.inl he2
          · exact Or.inr hf
        · omega
      · rw [if_neg hvis]
        have hinb : inB b c := by
          refine ⟨?_, ?_⟩
          · rw [hcols]
            exact hcin0.1
          · rw [hrows]
            exact hcin0.2
        rw [if_pos hinb]
        have hrevc := h3r c.1 c.2
        have hflagc := h3f c.1 c.2
        have hadjc := h3a c.1 c.2
        have hminec := h3m c.1 c.2
        have hrevc2 : (cellAtD b c.1 c.2).isRevealed = true ↔
            (cellAtD b0 c.1 c.2).isRevealed = true := by
          rw [hrevc]
          constructor
          · rintro (h | hcon)
            · exact h
            · exact absurd hcon.1 hvis
          · exact Or.inl
        by_cases hskip : (cellAtD b c.1 c.2).isRevealed = true ∨
            (cellAtD b c.1 c.2).isFlagged = true
        · rw [if_pos hskip]
          have hnelig : ¬eligible b0 (c.1, c.2) := by
            rintro ⟨hin, hnr, hnf⟩
            rcases hskip with hsk | hsk
            · have := hrevc2.mp hsk
              rw [this] at hnr
              simp at hnr
            · rw [hflagc] at hsk
              rw [hsk] at hnf
              simp at hnf
          have h2n : ∀ p ∈ c :: visited, inB b0 p ∧ Reaches b0 s p := by
            intro p hp
            rcases List.mem_cons.mp hp with hpc | hpv
            · rw [hpc]
              exact ⟨hcin0, hcreach⟩
            · exact h2 p hpv
          have h3rn : ∀ x y, (cellAtD b x y).isRevealed = true ↔
              ((cellAtD b0 x y).isRevealed = true ∨
                ((x, y) ∈ c :: visited ∧ eligible b0 (x, y))) := by
            intro x y
            rw [h3r x y]
            constructor
            · rintro (h | ⟨hm, he⟩)
              · exact Or.inl h
              · exact Or.inr ⟨List.mem_cons_of_mem _ hm, he⟩
            · rintro (h | ⟨hm, he⟩)
              · exact Or.inl h
              · rcases List.mem_cons.mp hm with hcc | hm2
                · exact absurd (hcc ▸ he) hnelig
                · exact Or.inr ⟨hm2, he⟩
          refine ih sel b (popRest sel (qh :: qs)) (c :: visited) hrows hcols
            hlen (fun p hp => h1 p (popRest_subset hp)) h2n h3m h3f h3a h3rn
            ?_ ?_ ?_
          · rcases h4 with hs | hs
            · rcases mem_pop_cases hs with he | he
              · refine Or.inr ?_
                rw [he, ← hcdef]
                exact List.mem_cons_self _ _
              · exact Or.inl he
            · exact Or.inr (List.mem_cons_of_mem _ hs)
          · intro p hp he q hq
            rcases List.mem_cons.mp hp with hpc | hpv
            · exact absurd (hpc ▸ he).1 hnelig
            · rcases h5 p hpv he q hq with hf | hf
              · rcases mem_pop_cases hf with he2 | he2
                · refine Or.inr ?_
                  rw [he2, ← hcdef]
                  exact List.mem_cons_self _ _
                · exact Or.inl he2
              · exact Or.inr (List.mem_cons_of_mem _ hf)
          · have hu := unvis_cons_le b0 c visited
            omega
        · rw [if_neg hskip]
          rcases not_or.mp hskip with ⟨hs1, hs2⟩
          have hnrev0 : (cellAtD b0 c.1 c.2).isRevealed = false := by
            cases hr0 : (cellAtD b0 c.1 c.2).isRevealed
            · rfl
            · exact absurd (hrevc2.mpr hr0) hs1
          have hnflag0 : (cellAtD b0 c.1 c.2).isFlagged = false := by
            cases hf0 : (cellAtD b0 c.1 c.2).isFlagged
            · rfl
            · exact absurd (by rw [hflagc]; exact hf0) hs2
          have helig : eligible b0 (c.1, c.2) := ⟨hcin0, hnrev0, hnflag0⟩
          have hxlt : c.1 < (b.getD c.2 []).length := by
            rw [hlen c.2, hwf.2.2 c.2 hcin0.2]
            exact hcin0.1
          have hylt : c.2 < rows b := by
            rw [hrows]
            exact hcin0.2
          have hself : cellAtD (updateCell b c.1 c.2
              fun cc => { cc with isRevealed := true }) c.1 c.2 =
              { cellAtD b c.1 c.2 with isRevealed := true } :=
            cellAtD_updateCell_self _ hylt hxlt
          have hrows1 : rows (updateCell b c.1 c.2
              fun cc => { cc with isRevealed := true }) = rows b0 := by
            rw [rows_updateCell, hrows]
          have hcols1 : cols (updateCell b c.1 c.2
              fun cc => { cc with isRevealed := true }) = cols b0 := by
            rw [cols_updateCell, hcols]
          have hlen1 : ∀ i, ((updateCell b c.1 c.2
              fun cc => { cc with isRevealed := true }).getD i []).length =
              (b0.getD i []).length := by
            intro i
            rw [rowlen_updateCell, hlen i]
          have h3m1 : ∀ x y, (cellAtD (updateCell b c.1 c.2
              fun cc => { cc with isRevealed := true }) x y).isMine =
              (cellAtD b0 x y).isMine := by
            intro x y
            rcases cellAtD_updateCell_cases b c.1 c.2
                (fun cc => { cc with isRevealed := true }) x y with hcse | hcse
            · rw [hcse]
              exact h3m x y
            · rw [hcse.2.2]
              exact h3m x y
          have h3f1 : ∀ x y, (cellAtD (updateCell b c.1 c.2
              fun cc => { cc with isRevealed := true }) x y).isFlagged =
              (cellAtD b0 x y).isFlagged := by
            intro x y
            rcases cellAtD_updateCell_cases b c.1 c.2
                (fun cc => { cc with isRevealed := true }) x y with hcse | hcse
            · rw [hcse]
              exact h3f x y
            · rw [hcse.2.2]
              exact h3f x y
          have h3a1 : ∀ x y, (cellAtD (updateCell b c.1 c.2
              fun cc => { cc with isRevealed := true }) x y).adjacent =
              (cellAtD b0 x y).adjacent := by
            intro x y
            rcases cellAtD_updateCell_cases b c.1 c.2
                (fun cc => { cc with isRevealed := true }) x y with hcse | hcse
            · rw [hcse]
              exact h3a x y
            · rw [hcse.2.2]
              exact h3a x y
          have h3r1 : ∀ x y, (cellAtD (updateCell b c.1 c.2
              fun cc => { cc with isRevealed := true }) x y).isRevealed =
                true ↔
              ((cellAtD b0 x y).isRevealed = true ∨
                ((x, y) ∈ c :: visited ∧ eligible b0 (x, y))) := by
            intro x y
            by_cases hxy : (x, y) = c
            · have hx : x = c.1 := by rw [← hxy]
              have hy : y = c.2 := by rw [← hxy]
              subst hx
              subst hy
              rw [hself]
              constructor
              · intro _
                exact Or.inr ⟨by rw [← hxy]; exact List.mem_cons_self _ _, helig⟩
              · intro _
                rfl
            · have hne : ¬(x = c.1 ∧ y = c.2) := fun hcon =>
                hxy (Prod.ext hcon.1 hcon.2)
              rw [cellAtD_updateCell_ne _ hne, h3r x y]
              constructor
              · rintro (h | ⟨hm, he⟩)
                · exact Or.inl h
                · exact Or.inr ⟨List.mem_cons_of_mem _ hm, he⟩
              · rintro (h | ⟨hm, he⟩)
                · exact Or.inl h
                · rcases List.mem_cons.mp hm with hcc | hm2
                  · exact absurd hcc hxy
                  · exact Or.inr ⟨hm2, he⟩
          have h2n : ∀ p ∈ c :: visited, inB b0 p ∧ Reaches b0 s p := by
            intro p hp
            rcases List.mem_cons.mp hp with hpc | hpv
            · rw [hpc]
              exact ⟨hcin0, hcreach⟩
            · exact h2 p hpv
          have h4n : s ∈ popRest sel (qh :: qs) ∨ s ∈ c :: visited := by
            rcases h4 with hs | hs
            · rcases mem_pop_cases hs with he | he
              · refine Or.inr ?_
                rw [he, ← hcdef]
                exact List.mem_cons_self _ _
              · exact Or.inl he
            · exact Or.inr (List.mem_cons_of_mem _ hs)
          have hult := unvis_cons_lt hcin0 hvis
          by_cases hexp : (cellAtD b c.1 c.2).adjacent = 0 ∧
              (cellAtD b c.1 c.2).isMine = false
          · rw [if_pos hexp]
            have hexp0 : expanding b0 c := by
              refine ⟨helig, ?_, ?_⟩
              · rw [← hadjc]
                exact hexp.1
              · rw [← hminec]
                exact hexp.2
            have hnb : nbrs (rows b) (cols b) c.1 c.2 =
                nbrs (rows b0) (cols b0) c.1 c.2 := by
              rw [hrows, hcols]
            rw [hnb]
            have h1n : ∀ p ∈ popRest sel (qh :: qs) ++
                nbrs (rows b0) (cols b0) c.1 c.2,
                inB b0 p ∧ Reaches b0 s p := by
              intro p hp
              rcases List.mem_append.mp hp with hp1 | hp1
              · exact h1 p (popRest_subset hp1)
              · have hb := mem_nbrs_bounds hp1
                exact ⟨⟨hb.1, hb.2⟩, Reaches.step hcreach hexp0 hp1⟩
            have h5n : ∀ p ∈ c :: visited, expanding b0 p →
                ∀ q ∈ nbrs (rows b0) (cols b0) p.1 p.2,
                  q ∈ popRest sel (qh :: qs) ++
                    nbrs (rows b0) (cols b0) c.1 c.2 ∨ q ∈ c :: visited := by
              intro p hp he q hq
              rcases List.mem_cons.mp hp with hpc | hpv
              · refine Or.inl (List.mem_append.mpr (Or.inr ?_))
                rw [hpc] at hq
                exact hq
              · rcases h5 p hpv he q hq with hf | hf
                · rcases mem_pop_cases hf with he2 | he2
                  · refine Or.inr ?_
                    rw [he2, ← hcdef]
                    exact List.mem_cons_self _ _
                  · exact Or.inl (List.mem_append.mpr (Or.inl he2))
                · exact Or.inr (List.mem_cons_of_mem _ hf)
            have h4n2 : s ∈ popRest sel (qh :: qs) ++
                nbrs (rows b0) (cols b0) c.1 c.2 ∨ s ∈ c :: visited := by
              rcases h4n with h | h
              · exact Or.inl (List.mem_append.mpr (Or.inl h))
              · exact Or.inr h
            refine ih sel _ _ (c :: visited) hrows1 hcols1 hlen1 h1n h2n
              h3m1 h3f1 h3a1 h3r1 h4n2 h5n ?_
            have hlnb := length_nbrs_le (rows b0) (cols b0) c.1 c.2
            rw [List.length_append]
            omega
          · rw [if_neg hexp]
            have h5n : ∀ p ∈ c :: visited, expanding b0 p →
                ∀ q ∈ nbrs (rows b0) (cols b0) p.1 p.2,
                  q ∈ popRest sel (qh :: qs) ∨ q ∈ c :: visited := by
              intro p hp he q hq
              rcases List.mem_cons.mp hp with hpc | hpv
              · exfalso
                refine hexp ?_
                have he2 : expanding b0 c := hpc ▸ he
                refine ⟨?_, ?_⟩
                · rw [hadjc]
                  exact he2.2.1
                · rw [hminec]
                  exact he2.2.2
              · rcases h5 p hpv he q hq with hf | hf
                · rcases mem_pop_cases hf with he2 | he2
                  · refine Or.inr ?_
                    rw [he2, ← hcdef]
                    exact List.mem_cons_self _ _
                  · exact Or.inl he2
                · exact Or.inr (List.mem_cons_of_mem _ hf)
            refine ih sel _ _ (c :: visited) hrows1 hcols1 hlen1
              (fun p hp => h1 p (popRest_subset hp)) h2n h3m1 h3f1 h3a1 h3r1
              h4n h5n ?_
            omega


/-! Composite helpers: instantiations and congruence for counting. -/

theorem unvis_nil (b : Board) : unvis b [] = rows b * cols b := by
  unfold unvis
  have h : ∀ p ∈ allCoords (rows b) (cols b),
      (!decide (p ∈ ([] : List (Nat × Nat)))) = true := by
    intro p hp
    simp
  rw [List.countP_eq_length_filter, List.filter_eq_self.mpr h, length_allCoords]

theorem WF_of_dims {b b' : Board} (hwf : WF b) (hr : rows b' = rows b)
    (hl : ∀ i, (b'.getD i []).length = (b.getD i []).length) :
    WF b' ∧ cols b' = cols b := by
  have hc : cols b' = cols b := hl 0
  refine ⟨⟨?_, ?_, ?_⟩, hc⟩
  · rw [hr]
    exact hwf.1
  · rw [hc]
    exact hwf.2.1
  · intro i hi
    rw [hl i, hc]
    exact hwf.2.2 i (by rw [← hr]; exact hi)

theorem countFlags_congr {b b' : Board} (hwf : WF b) (hwf' : WF b')
    (hr : rows b' = rows b) (hc : cols b' = cols b)
    (hpt : ∀ x y, (cellAtD b' x y).isFlagged = (cellAtD b x y).isFlagged) :
    countFlags b' = countFlags b := by
  unfold countFlags
  rw [← List.countP_eq_length_filter, ← List.countP_eq_length_filter,
    countP_eq_coords _ hwf', countP_eq_coords _ hwf, hr, hc]
  exact countP_congr_mem fun p hp => hpt p.1 p.2

theorem countMines_congr {b b' : Board} (hwf : WF b) (hwf' : WF b')
    (hr : rows b' = rows b) (hc : cols b' = cols b)
    (hpt : ∀ x y, (cellAtD b' x y).isMine = (cellAtD b x y).isMine) :
    countMines b' = countMines b := by
  unfold countMines
  rw [countP_eq_coords _ hwf', countP_eq_coords _ hwf, hr, hc]
  exact countP_congr_mem fun p hp => hpt p.1 p.2

theorem neighborMineCount_congr {b b' : Board} (hr : rows b' = rows b)
    (hc : cols b' = cols b)
    (hm : ∀ x y, (cellAtD b' x y).isMine = (cellAtD b x y).isMine)
    (x y : Nat) : neighborMineCount b' x y = neighborMineCount b x y := by
  unfold neighborMineCount
  rw [hr, hc]
  exact countP_congr_mem fun p hp => hm p.1 p.2

theorem computeAdjacency_fields {b : Board} (hwf : WF b) (x y : Nat) :
    (cellAtD (computeAdjacency b) x y).isMine = (cellAtD b x y).isMine ∧
    (cellAtD (computeAdjacency b) x y).isRevealed =
      (cellAtD b x y).isRevealed ∧
    (cellAtD (computeAdjacency b) x y).isFlagged =
      (cellAtD b x y).isFlagged := by
  by_cases hy : y < rows b
  · by_cases hx : x < cols b
    · rw [cellAtD_computeAdjacency hx hy]
      by_cases hm : (cellAtD b x y).isMine = true
      · rw [if_pos hm]
        exact ⟨rfl, rfl, rfl⟩
      · rw [if_neg hm]
        exact ⟨rfl, rfl, rfl⟩
    · have h1 : cellAtD (computeAdjacency b) x y = default := by
        refine cellAtD_oob ?_
        rw [rows_computeAdjacency]
        intro hcon
        rw [rowlen_computeAdjacency b hy] at hcon
        omega
      have h2 : cellAtD b x y = default := by
        refine cellAtD_oob ?_
        intro hcon
        rw [hwf.2.2 y hy] at hcon
        omega
      rw [h1, h2]
      exact ⟨rfl, rfl, rfl⟩
  · have h1 : cellAtD (computeAdjacency b) x y = default := by
      refine cellAtD_oob ?_
      rw [rows_computeAdjacency]
      omega
    have h2 : cellAtD b x y = default := cellAtD_oob (by omega)
    rw [h1, h2]
    exact ⟨rfl, rfl, rfl⟩

theorem placeMines_parts {b : Board} {mines : Nat} {initial : Int × Int}
    {picks : List (Nat × Nat)} {b' : Board}
    (h : placeMines b mines initial picks = some b') :
    ∃ bp, placeLoop b mines 0 initial picks = some bp ∧
      b' = computeAdjacency bp := by
  unfold placeMines at h
  cases hopt : placeLoop b mines 0 initial picks with
  | none =>
    rw [hopt] at h
    cases h
  | some bp =>
    rw [hopt] at h
    cases h
    exact ⟨bp, rfl, rfl⟩

theorem placeMines_frame {b : Board} {mines : Nat} {initial : Int × Int}
    {picks : List (Nat × Nat)} {b' : Board} (hwf : WF b)
    (h : placeMines b mines initial picks = some b') :
    WF b' ∧ rows b' = rows b ∧ cols b' = cols b ∧
    ∀ x y,
      (cellAtD b' x y).isRevealed = (cellAtD b x y).isRevealed ∧
      (cellAtD b' x y).isFlagged = (cellAtD b x y).isFlagged ∧
      ((cellAtD b x y).isMine = true → (cellAtD b' x y).isMine = true) := by
  obtain ⟨bp, hloop, hadj⟩ := placeMines_parts h
  obtain ⟨hrp, hlp, hcellp⟩ := placeLoop_frame picks b mines 0 initial bp hloop
  obtain ⟨hwfp, hcp⟩ := WF_of_dims hwf hrp hlp
  have hwf' : WF b' := by
    rw [hadj]
    exact WF_computeAdjacency hwfp
  have hr' : rows b' = rows b := by
    rw [hadj, rows_computeAdjacency, hrp]
  have hc' : cols b' = cols b := by
    rw [hadj]
    have h0 : cols (computeAdjacency bp) = cols bp :=
      rowlen_computeAdjacency bp hwfp.1
    rw [h0, hcp]
  refine ⟨hwf', hr', hc', ?_⟩
  intro x y
  have hfields := computeAdjacency_fields hwfp x y
  obtain ⟨hrev, hflag, hadjp, hmine⟩ := hcellp x y
  refine ⟨?_, ?_, ?_⟩
  · rw [hadj, hfields.2.1, hrev]
  · rw [hadj, hfields.2.2, hflag]
  · intro hm
    rw [hadj, hfields.1]
    exact hmine hm

theorem cellAt?_eq_some {b : Board} {x y : Int} {cell : Cell}
    (h : cellAt? b x y = some cell) :
    0 ≤ x ∧ x < (cols b : Int) ∧ 0 ≤ y ∧ y < (rows b : Int) ∧
      cell = cellAtD b x.toNat y.toNat := by
  unfold cellAt? at h
  by_cases hb : 0 ≤ x ∧ x < (cols b : Int) ∧ 0 ≤ y ∧ y < (rows b : Int)
  · rw [if_pos hb] at h
    cases h
    exact ⟨hb.1, hb.2.1, hb.2.2.1, hb.2.2.2, rfl⟩
  · rw [if_neg hb] at h
    cases h

theorem revealCell_marks {b : Board} (hwf : WF b) {x y : Nat}
    (hx : x < cols b) (hy : y < rows b) (sel : List (Nat × Nat) → Nat)
    {fuel : Nat} (hfuel : revealFuel b ≤ fuel) :
    ∀ cx cy,
      (cellAtD (revealLoop sel b [(x, y)] [] fuel) cx cy).isRevealed = true ↔
      ((cellAtD b cx cy).isRevealed = true ∨
        (Reaches b (x, y) (cx, cy) ∧ eligible b (cx, cy))) := by
  refine revealLoop_master b (x, y) hwf fuel sel b [(x, y)] [] rfl rfl
    (fun i => rfl) ?_ ?_ (fun a c => rfl) (fun a c => rfl) (fun a c => rfl)
    ?_ ?_ ?_ ?_
  · intro p hp
    have hp2 : p = (x, y) := by
      rcases List.mem_cons.mp hp with h | h
      · exact h
      · exact absurd h (List.not_mem_nil p)
    rw [hp2]
    exact ⟨⟨hx, hy⟩, Reaches.refl⟩
  · intro p hp
    exact absurd hp (List.not_mem_nil p)
  · intro a c
    constructor
    · intro h
      refine Or.inl h
    · rintro (h | ⟨hm, he⟩)
      · exact h
      · exact absurd hm (List.not_mem_nil _)
  · exact Or.inl (List.mem_cons_self _ _)
  · intro p hp
    exact absurd hp (List.not_mem_nil p)
  · rw [unvis_nil, List.length_cons, List.length_nil]
    unfold revealFuel at hfuel
    omega


theorem band_split {a b : Bool} (h : (a && b) = true) :
    a = true ∧ b = true := by
  cases a <;> cases b <;> simp_all

/-! Claim theorems. -/

/-- C2: after `placeMines` returns (any input board, any excluded cell,
any outcome of the random draws on which it terminates), every non-mine
cell's `adjacent` field equals the exact count of its in-bounds
orthogonal/diagonal neighbors that are mines. -/
theorem claim_C2_adjacent_exact (b : Board) (mines : Nat) (initial : Int × Int)
    (picks : List (Nat × Nat)) (b' : Board) (hwf : WF b)
    (hrun : placeMines b mines initial picks = some b') :
    ∀ x y, x < cols b' → y < rows b' → (cellAtD b' x y).isMine = false →
      (cellAtD b' x y).adjacent = neighborMineCount b' x y := by
  obtain ⟨bp, hloop, hadj⟩ := placeMines_parts hrun
  obtain ⟨hrp, hlp, hcellp⟩ := placeLoop_frame picks b mines 0 initial bp hloop
  obtain ⟨hwfp, hcp⟩ := WF_of_dims hwf hrp hlp
  intro x y hx hy hnm
  have hr2 : rows b' = rows bp := by
    rw [hadj, rows_computeAdjacency]
  have hc2 : cols b' = cols bp := by
    rw [hadj]
    exact rowlen_computeAdjacency bp hwfp.1
  rw [hr2] at hy
  rw [hc2] at hx
  have hcells := cellAtD_computeAdjacency (b := bp) hx hy
  have hmbp : (cellAtD bp x y).isMine = false := by
    have hfield := (computeAdjacency_fields hwfp x y).1
    rw [← hadj] at hfield
    rw [← hfield]
    exact hnm
  rw [hadj, hcells, if_neg (by rw [hmbp]; exact Bool.false_ne_true)]
  show neighborMineCount bp x y = neighborMineCount (computeAdjacency bp) x y
  refine (neighborMineCount_congr ?_ ?_ ?_ x y).symm
  · rw [rows_computeAdjacency]
  · exact rowlen_computeAdjacency bp hwfp.1
  · intro a c
    exact (computeAdjacency_fields hwfp a c).1

theorem claim_C2_witness :
    WF (createEmptyBoard 2 2) ∧
    (∀ x y,
      x < cols ((placeMines (createEmptyBoard 2 2) 1 (0, 0) [(1, 1)]).getD []) →
      y < rows ((placeMines (createEmptyBoard 2 2) 1 (0, 0) [(1, 1)]).getD []) →
      (cellAtD ((placeMines (createEmptyBoard 2 2) 1 (0, 0) [(1, 1)]).getD [])
        x y).isMine = false →
      (cellAtD ((placeMines (createEmptyBoard 2 2) 1 (0, 0) [(1, 1)]).getD [])
        x y).adjacent =
        neighborMineCount
          ((placeMines (createEmptyBoard 2 2) 1 (0, 0) [(1, 1)]).getD [])
          x y) :=
  ⟨by decide,
    claim_C2_adjacent_exact (createEmptyBoard 2 2) 1 (0, 0) [(1, 1)] _
      (by decide) (by rfl)⟩

/-- C3: `checkWin` is true iff the number of revealed non-mine cells
equals the number of non-mine cells, equivalently iff every non-mine
cell is revealed; on a board with a hidden non-mine cell it is false. -/
theorem claim_C3_checkWin (b : Board) (mines : Nat) :
    (checkWin b mines = true ↔
      (b.flatten.countP fun c => !c.isMine && c.isRevealed) =
        (b.flatten.countP fun c => !c.isMine)) ∧
    (checkWin b mines = true ↔
      ∀ c ∈ b.flatten, c.isMine = false → c.isRevealed = true) ∧
    (∀ c ∈ b.flatten, c.isMine = false → c.isRevealed = false →
      checkWin b mines = false) := by
  have himp : ∀ c : Cell, (!c.isMine && c.isRevealed) = true →
      (!c.isMine) = true := fun c hc => (band_split hc).1
  have h1 : checkWin b mines = true ↔
      (b.flatten.countP fun c => !c.isMine && c.isRevealed) =
        (b.flatten.countP fun c => !c.isMine) := by
    unfold checkWin
    rw [decide_eq_true_eq]
  have h2 : checkWin b mines = true ↔
      ∀ c ∈ b.flatten, c.isMine = false → c.isRevealed = true := by
    rw [h1, countP_eq_countP_iff _ himp]
    constructor
    · intro hall c hc hm
      have hh := hall c hc (by rw [hm]; rfl)
      exact (band_split hh).2
    · intro hall a ha hnm
      have hm : a.isMine = false := by
        cases hmm : a.isMine
        · rfl
        · rw [hmm] at hnm
          exact absurd hnm (by decide)
      rw [Bool.and_eq_true]
      exact ⟨hnm, hall a ha hm⟩
  refine ⟨h1, h2, ?_⟩
  intro c hc hm hr
  cases hcw : checkWin b mines
  · rfl
  · have := (h2.mp hcw) c hc hm
    rw [this] at hr
    exact absurd hr (by decide)

theorem claim_C3_witness :
    (checkWin (createEmptyBoard 2 2) 1 = true ↔
      ((createEmptyBoard 2 2).flatten.countP
          fun c => !c.isMine && c.isRevealed) =
        ((createEmptyBoard 2 2).flatten.countP fun c => !c.isMine)) ∧
    (checkWin (createEmptyBoard 2 2) 1 = true ↔
      ∀ c ∈ (createEmptyBoard 2 2).flatten, c.isMine = false →
        c.isRevealed = true) ∧
    (∀ c ∈ (createEmptyBoard 2 2).flatten, c.isMine = false →
      c.isRevealed = false → checkWin (createEmptyBoard 2 2) 1 = false) :=
  claim_C3_checkWin (createEmptyBoard 2 2) 1

/-- C4: on an initially mine-free board, when `placeMines` terminates it
leaves the excluded cell mine-free and places exactly `mineCount` mines. -/
theorem claim_C4_placement (b : Board) (mines nx ny : Nat)
    (picks : List (Nat × Nat)) (b' : Board) (hwf : WF b)
    (hmf : ∀ x y, (cellAtD b x y).isMine = false)
    (hbound : mines ≤ rows b * cols b - 1)
    (hpk : ∀ p ∈ picks, p.1 < cols b ∧ p.2 < rows b)
    (hrun : placeMines b mines ((nx : Int), (ny : Int)) picks = some b') :
    (cellAtD b' nx ny).isMine = false ∧ countMines b' = mines := by
  clear hbound
  obtain ⟨bp, hloop, hadj⟩ := placeMines_parts hrun
  obtain ⟨hcnt, hwfp⟩ := placeLoop_count picks b mines 0 _ bp hwf hpk hloop
  constructor
  · have hinit := placeLoop_initial_mine picks b mines 0 nx ny bp hloop
    have hfield := (computeAdjacency_fields hwfp nx ny).1
    rw [hadj, hfield, hinit]
    exact hmf nx ny
  · have hb0 : countMines b = 0 := by
      unfold countMines
      rw [countP_eq_coords _ hwf, List.countP_eq_zero]
      intro p hp
      rw [hmf p.1 p.2]
      exact Bool.false_ne_true
    have hcm : countMines b' = countMines bp := by
      refine countMines_congr hwfp
        (by rw [hadj]; exact WF_computeAdjacency hwfp) ?_ ?_ ?_
      · rw [hadj, rows_computeAdjacency]
      · rw [hadj]
        exact rowlen_computeAdjacency bp hwfp.1
      · intro x y
        rw [hadj]
        exact (computeAdjacency_fields hwfp x y).1
    rw [hcm, hcnt, hb0]
    omega

theorem claim_C4_witness :
    WF (createEmptyBoard 2 2) ∧ 1 ≤ 2 * 2 - 1 ∧
    (cellAtD ((placeMines (createEmptyBoard 2 2) 1 (0, 0) [(1, 1)]).getD [])
      0 0).isMine = false ∧
    countMines ((placeMines (createEmptyBoard 2 2) 1 (0, 0) [(1, 1)]).getD []) =
      1 := by
  refine ⟨by decide, by decide, ?_⟩
  have hres := claim_C4_placement (createEmptyBoard 2 2) 1 0 0 [(1, 1)] _
    (by decide) (fun x y => (createEmptyBoard_blank 2 2 x y).1)
    (by decide) (by decide) (by rfl)
  exact hres

/-- C6: the spec requires out-of-range coordinates passed to the reveal
and flag-toggle handlers to be defensively ignored (no mutation, no
crash), but the source dereferences `board[y][x]` without any bounds
check, so both handlers throw a `TypeError` (modelled as `none`) on the
out-of-range coordinate (0, 9) of a 9-by-9 Beginner session. -/
theorem claim_C6_oob_crashes :
    handleCellClick (freshSession .Beginner) 0 9 [] = none ∧
    handleCellRightClick { freshSession .Beginner with started := true }
      0 9 = none := by
  constructor
  · rfl
  · rfl

/-- C8: the flood fill changes only `isRevealed`: `isMine`, `isFlagged`
and `adjacent` of every cell are unchanged, and `countFlags` is
preserved. -/
theorem claim_C8_reveal_frame (b : Board) (x y : Nat) (hwf : WF b)
    (hx : x < cols b) (hy : y < rows b) :
    (∀ cx cy,
      (cellAtD (revealCell b x y) cx cy).isMine =
        (cellAtD b cx cy).isMine ∧
      (cellAtD (revealCell b x y) cx cy).isFlagged =
        (cellAtD b cx cy).isFlagged ∧
      (cellAtD (revealCell b x y) cx cy).adjacent =
        (cellAtD b cx cy).adjacent) ∧
    countFlags (revealCell b x y) = countFlags b := by
  obtain ⟨hr, hl, hcell⟩ := revealLoop_frame selLast (revealFuel b) b
    [(x, y)] []
  obtain ⟨hwf2, hc⟩ := WF_of_dims hwf hr hl
  refine ⟨?_, ?_⟩
  · intro cx cy
    exact ⟨(hcell cx cy).1, (hcell cx cy).2.1, (hcell cx cy).2.2.1⟩
  · exact countFlags_congr hwf hwf2 hr hc fun cx cy => (hcell cx cy).2.1

theorem claim_C8_witness :
    WF (createEmptyBoard 2 2) ∧ 0 < cols (createEmptyBoard 2 2) ∧
    0 < rows (createEmptyBoard 2 2) ∧
    ((∀ cx cy,
      (cellAtD (revealCell (createEmptyBoard 2 2) 0 0) cx cy).isMine =
        (cellAtD (createEmptyBoard 2 2) cx cy).isMine ∧
      (cellAtD (revealCell (createEmptyBoard 2 2) 0 0) cx cy).isFlagged =
        (cellAtD (createEmptyBoard 2 2) cx cy).isFlagged ∧
      (cellAtD (revealCell (createEmptyBoard 2 2) 0 0) cx cy).adjacent =
        (cellAtD (createEmptyBoard 2 2) cx cy).adjacent) ∧
    countFlags (revealCell (createEmptyBoard 2 2) 0 0) =
      countFlags (createEmptyBoard 2 2)) :=
  ⟨by decide, by decide, by decide,
    claim_C8_reveal_frame (createEmptyBoard 2 2) 0 0 (by decide) (by decide)
      (by decide)⟩

/-- C10: on a board produced by `placeMines` from a fresh
`createEmptyBoard`, every mine cell keeps `adjacent = 0`: the adjacency
pass skips mine cells, whose `adjacent` stays at its initial value. -/
theorem claim_C10_mines_adjacent_zero (rs cs mines : Nat)
    (initial : Int × Int) (picks : List (Nat × Nat)) (b' : Board)
    (hrun : placeMines (createEmptyBoard rs cs) mines initial picks =
      some b') :
    ∀ x y, (cellAtD b' x y).isMine = true → (cellAtD b' x y).adjacent = 0 := by
  obtain ⟨bp, hloop, hadj⟩ := placeMines_parts hrun
  obtain ⟨hrp, hlp, hcellp⟩ := placeLoop_frame picks _ mines 0 initial bp hloop
  intro x y hm
  by_cases hy : y < rows bp
  · by_cases hx : x < cols bp
    · have hcells := cellAtD_computeAdjacency (b := bp) hx hy
      have hmbp : (cellAtD bp x y).isMine = true := by
        rw [hadj, hcells] at hm
        by_cases hmine : (cellAtD bp x y).isMine = true
        · exact hmine
        · rw [if_neg hmine] at hm
          exact absurd hm hmine
      rw [hadj, hcells, if_pos hmbp]
      rw [(hcellp x y).2.2.1]
      exact (createEmptyBoard_blank rs cs x y).2.2.2
    · exfalso
      have hd : cellAtD b' x y = default := by
        rw [hadj]
        refine cellAtD_oob ?_
        rw [rows_computeAdjacency]
        intro hcon
        rw [rowlen_computeAdjacency bp hy] at hcon
        omega
      rw [hd] at hm
      exact absurd hm (by decide)
  · exfalso
    have hd : cellAtD b' x y = default := by
      rw [hadj]
      refine cellAtD_oob ?_
      rw [rows_computeAdjacency]
      omega
    rw [hd] at hm
    exact absurd hm (by decide)

theorem claim_C10_witness :
    (cellAtD ((placeMines (createEmptyBoard 2 2) 1 (0, 0) [(1, 1)]).getD [])
      1 1).isMine = true ∧
    (cellAtD ((placeMines (createEmptyBoard 2 2) 1 (0, 0) [(1, 1)]).getD [])
      1 1).adjacent = 0 :=
  ⟨by decide,
    claim_C10_mines_adjacent_zero 2 2 1 (0, 0) [(1, 1)] _ (by rfl) 1 1
      (by decide)⟩


/-- C9 (amended): on an initially mine-free board, the rejection-sampling
placement can always terminate when `mineCount ≤ rows*cols − 1` (some
in-bounds pick stream — e.g. an enumeration of all cells — succeeds,
which is the possibilistic rendering of almost-sure termination), and
when the bound is violated every in-bounds pick stream fails, i.e. the
source loops forever. -/
theorem claim_C9_termination (b : Board) (mines nx ny : Nat) (hwf : WF b)
    (hmf : ∀ x y, (cellAtD b x y).isMine = false)
    (hnx : nx < cols b) (hny : ny < rows b) :
    (mines ≤ rows b * cols b - 1 →
      ∃ picks, (∀ p ∈ picks, p.1 < cols b ∧ p.2 < rows b) ∧
        (placeMines b mines ((nx : Int), (ny : Int)) picks).isSome = true) ∧
    (rows b * cols b - 1 < mines →
      ∀ picks, (∀ p ∈ picks, p.1 < cols b ∧ p.2 < rows b) →
        placeMines b mines ((nx : Int), (ny : Int)) picks = none) := by
  have hav := availCount_mineFree hmf hnx hny
  constructor
  · intro hle
    refine ⟨allCoords (rows b) (cols b), fun p hp => mem_allCoords.mp hp, ?_⟩
    have hcnt : mines ≤ 0 + (allCoords (rows b) (cols b)).countP
        (eligPickB b ((nx : Int), (ny : Int))) := by
      have he : (allCoords (rows b) (cols b)).countP
          (eligPickB b ((nx : Int), (ny : Int))) =
          availCount b ((nx : Int), (ny : Int)) := rfl
      omega
    have hsome := placeLoop_isSome (allCoords (rows b) (cols b)) b mines 0
      ((nx : Int), (ny : Int)) hwf (fun p hp => mem_allCoords.mp hp)
      (nodup_allCoords _ _) hcnt
    unfold placeMines
    cases hopt : placeLoop b mines 0 ((nx : Int), (ny : Int))
        (allCoords (rows b) (cols b)) with
    | none =>
      rw [hopt] at hsome
      simp at hsome
    | some bp => rfl
  · intro hgt picks hpk
    unfold placeMines
    cases hopt : placeLoop b mines 0 ((nx : Int), (ny : Int)) picks with
    | none => rfl
    | some bp =>
      exfalso
      have hb := placeLoop_bound picks b mines 0 _ bp hwf hpk hopt
      omega

theorem claim_C9_witness :
    WF (createEmptyBoard 2 2) ∧
    (∀ x y, (cellAtD (createEmptyBoard 2 2) x y).isMine = false) ∧
    0 < cols (createEmptyBoard 2 2) ∧ 0 < rows (createEmptyBoard 2 2) ∧
    ((3 ≤ rows (createEmptyBoard 2 2) * cols (createEmptyBoard 2 2) - 1 →
      ∃ picks, (∀ p ∈ picks, p.1 < cols (createEmptyBoard 2 2) ∧
          p.2 < rows (createEmptyBoard 2 2)) ∧
        (placeMines (createEmptyBoard 2 2) 3 ((0 : Nat), (0 : Nat))
          picks).isSome = true) ∧
    (rows (createEmptyBoard 2 2) * cols (createEmptyBoard 2 2) - 1 < 3 →
      ∀ picks, (∀ p ∈ picks, p.1 < cols (createEmptyBoard 2 2) ∧
          p.2 < rows (createEmptyBoard 2 2)) →
        placeMines (createEmptyBoard 2 2) 3 ((0 : Nat), (0 : Nat))
          picks = none)) :=
  ⟨by decide, fun x y => (createEmptyBoard_blank 2 2 x y).1, by decide,
    by decide,
    claim_C9_termination (createEmptyBoard 2 2) 3 0 0 (by decide)
      (fun x y => (createEmptyBoard_blank 2 2 x y).1) (by decide) (by decide)⟩

/-- C9 counterexample: a 2-by-2 board that already holds 2 mines (fewer
than mineCount = 3) and satisfies 3 ≤ 2*2 − 1, yet only one eligible cell
remains for the loop, which must place 3 new mines: `placeMines` fails on
every in-bounds pick stream, i.e. the source loop runs forever, refuting
the claim for boards that are not mine-free. -/
theorem claim_C9_counterexample :
    countMines preMinedBoard = 2 ∧ 2 < 3 ∧
    3 ≤ rows preMinedBoard * cols preMinedBoard - 1 ∧
    ∀ picks, (∀ p ∈ picks, p.1 < cols preMinedBoard ∧
        p.2 < rows preMinedBoard) →
      placeMines preMinedBoard 3 ((0 : Int), (1 : Int)) picks = none := by
  refine ⟨by decide, by decide, by decide, ?_⟩
  intro picks hpk
  unfold placeMines
  cases hopt : placeLoop preMinedBoard 3 0 ((0 : Int), (1 : Int)) picks with
  | none => rfl
  | some bp =>
    exfalso
    have hb := placeLoop_bound picks preMinedBoard 3 0 _ bp (by decide) hpk
      hopt
    have hav2 : availCount preMinedBoard ((0 : Int), (1 : Int)) = 1 := by
      decide
    omega

/-- C1 (amended): for every rectangular board, every in-bounds start and
every frontier traversal order (any `sel`, with enough fuel to drain the
frontier), the flood fill ends with exactly these cells revealed: the
cells revealed before, plus every unflagged, not-yet-revealed cell
reachable from the start, where propagation passes only through
unflagged, not-yet-revealed, zero-adjacency non-mine cells.  In
particular the final set is independent of the traversal order, flagged
cells are never revealed, and propagation stops at flagged and at
already-revealed cells alike. -/
theorem claim_C1_flood_fill_set (b : Board) (x y : Nat)
    (sel : List (Nat × Nat) → Nat) (fuel : Nat) (hwf : WF b)
    (hx : x < cols b) (hy : y < rows b) (hfuel : revealFuel b ≤ fuel) :
    ∀ cx cy,
      (cellAtD (revealLoop sel b [(x, y)] [] fuel) cx cy).isRevealed = true ↔
      ((cellAtD b cx cy).isRevealed = true ∨
        (Reaches b (x, y) (cx, cy) ∧ eligible b (cx, cy))) :=
  revealCell_marks hwf hx hy sel hfuel

theorem claim_C1_witness :
    WF (createEmptyBoard 1 2) ∧ 0 < cols (createEmptyBoard 1 2) ∧
    0 < rows (createEmptyBoard 1 2) ∧
    revealFuel (createEmptyBoard 1 2) ≤ 19 ∧
    ∀ cx cy,
      (cellAtD (revealLoop selLast (createEmptyBoard 1 2) [(0, 0)] [] 19)
        cx cy).isRevealed = true ↔
      ((cellAtD (createEmptyBoard 1 2) cx cy).isRevealed = true ∨
        (Reaches (createEmptyBoard 1 2) (0, 0) (cx, cy) ∧
          eligible (createEmptyBoard 1 2) (cx, cy))) :=
  ⟨by decide, by decide, by decide, by decide,
    claim_C1_flood_fill_set (createEmptyBoard 1 2) 0 0 selLast 19 (by decide)
      (by decide) (by decide) (by decide)⟩

/-- C1 counterexample: on a 1-by-3 board of zero-adjacency cells whose
middle cell is already revealed, the claimed revealed set (`specMarkedSet`,
transcribed from the claim's wording: the connected zero-adjacency
component of the start plus every bordering cell, minus flagged cells)
contains the cell (2, 0), but `revealCell` started at (0, 0) leaves it
unrevealed: propagation also refuses to pass through already-revealed
cells, which the claim as stated does not account for. -/
theorem claim_C1_counterexample :
    (2, 0) ∈ specMarkedSet blockedBoard (0, 0) 5 ∧
    (cellAtD blockedBoard 2 0).isFlagged = false ∧
    (cellAtD blockedBoard 2 0).isRevealed = false ∧
    (cellAtD (revealCell blockedBoard 0 0) 2 0).isRevealed = false := by
  decide


/-! Controller invariant machinery for the revealed-and-flagged claim. -/

/-- No cell of the board is simultaneously revealed and flagged. -/
def NoRevealedFlag (b : Board) : Prop :=
  ∀ x y, ¬((cellAtD b x y).isRevealed = true ∧
    (cellAtD b x y).isFlagged = true)

/-- Inductive session invariant: the board is well formed, and while the
game is in progress no cell is both revealed and flagged. -/
def SessionInv (s : Session) : Prop :=
  WF s.board ∧ (s.status = .playing → NoRevealedFlag s.board)

theorem WF_mapBoard {b : Board} (f : Cell → Cell) (hwf : WF b) :
    WF (mapBoard f b) :=
  (WF_of_dims hwf (rows_mapBoard f b) (rowlen_mapBoard f b)).1

theorem WF_revealCell {b : Board} (hwf : WF b) (x y : Nat) :
    WF (revealCell b x y) := by
  obtain ⟨hr, hl, _⟩ := revealLoop_frame selLast (revealFuel b) b [(x, y)] []
  exact (WF_of_dims hwf hr hl).1

theorem setRevealed_cell_facts (b : Board) (x y cx cy : Nat) :
    (cellAtD (updateCell b x y fun c => { c with isRevealed := true })
        cx cy).isFlagged = (cellAtD b cx cy).isFlagged ∧
    ((cellAtD b cx cy).isMine = true →
      (cellAtD (updateCell b x y fun c => { c with isRevealed := true })
        cx cy).isMine = true) := by
  rcases cellAtD_updateCell_cases b x y
      (fun c => { c with isRevealed := true }) cx cy with hc | hc
  · rw [hc]
    exact ⟨rfl, fun hm => hm⟩
  · rw [hc.2.2]
    exact ⟨rfl, fun hm => hm⟩

theorem revealMines_map_facts (b : Board) (cx cy : Nat) :
    ((cellAtD (mapBoard
        (fun c => if c.isMine then { c with isRevealed := true } else c) b)
        cx cy).isMine = true →
      (cellAtD (mapBoard
        (fun c => if c.isMine then { c with isRevealed := true } else c) b)
        cx cy).isRevealed = true) ∧
    (cellAtD (mapBoard
        (fun c => if c.isMine then { c with isRevealed := true } else c) b)
        cx cy).isFlagged = (cellAtD b cx cy).isFlagged := by
  rcases cellAtD_mapBoard_cases
      (fun c => if c.isMine then { c with isRevealed := true } else c) b cx cy
      with hc | hc
  · rw [hc]
    by_cases hm : (cellAtD b cx cy).isMine = true
    · rw [if_pos hm]
      exact ⟨fun _ => rfl, rfl⟩
    · rw [if_neg hm]
      exact ⟨fun hmm => absurd hmm hm, rfl⟩
  · rw [hc.1, hc.2]
    refine ⟨fun hm => absurd hm (by decide), rfl⟩

theorem freshSession_inv (d : Difficulty) : SessionInv (freshSession d) := by
  constructor
  · cases d <;> exact WF_createEmptyBoard (by decide) (by decide)
  · intro _ x y hcon
    have hblank := (createEmptyBoard_blank (DIFFICULTIES d).1
      (DIFFICULTIES d).2.1 x y).2.1
    have hc1 : (cellAtD (createEmptyBoard (DIFFICULTIES d).1
      (DIFFICULTIES d).2.1) x y).isRevealed = true := hcon.1
    rw [hc1] at hblank
    exact absurd hblank (by decide)

theorem handleCellClick_inv {s s1 : Session} {x y : Int}
    {picks : List (Nat × Nat)} (hinv : SessionInv s)
    (h : handleCellClick s x y picks = some s1) : SessionInv s1 := by
  obtain ⟨hwf, hnrf⟩ := hinv
  unfold handleCellClick at h
  split at h
  · cases h
    exact ⟨hwf, hnrf⟩
  · rename_i hst
    push_neg at hst
    split at h
    · exact Option.noConfusion h
    · rename_i xs cell hcell
      split at h
      · cases h
        exact ⟨hwf, hnrf⟩
      · rename_i hfr
        split at h
        · exact Option.noConfusion h
        · rename_i xb b1 hb1
          have hb1facts : WF b1 ∧
              (∀ a c, (cellAtD b1 a c).isRevealed =
                (cellAtD s.board a c).isRevealed) ∧
              (∀ a c, (cellAtD b1 a c).isFlagged =
                (cellAtD s.board a c).isFlagged) := by
            by_cases hstart : s.started = true
            · rw [if_pos hstart] at hb1
              cases hb1
              exact ⟨hwf, fun a c => rfl, fun a c => rfl⟩
            · rw [if_neg hstart] at hb1
              obtain ⟨hwf1, _, _, hcells⟩ := placeMines_frame hwf hb1
              exact ⟨hwf1, fun a c => (hcells a c).1, fun a c => (hcells a c).2.1⟩
          obtain ⟨hwf1, hrev1, hflag1⟩ := hb1facts
          split at h
          · exact Option.noConfusion h
          · rename_i xc cell1 hcell1
            split at h
            · cases h
              refine ⟨WF_mapBoard _ (WF_updateCell _ _ _ hwf1), ?_⟩
              intro hcon
              simp at hcon
            · rename_i hmine
              split at h
              · cases h
                refine ⟨WF_mapBoard _ (WF_revealCell hwf1 _ _), ?_⟩
                intro hcon
                simp at hcon
              · cases h
                refine ⟨WF_revealCell hwf1 _ _, ?_⟩
                intro _ cx cy hcon
                obtain ⟨hrev, hflag⟩ := hcon
                obtain ⟨hrF, hlF, hcellF⟩ := revealLoop_frame selLast
                  (revealFuel b1) b1 [(x.toNat, y.toNat)] []
                have hflag_b1 : (cellAtD b1 cx cy).isFlagged = true := by
                  rw [← (hcellF cx cy).2.1]
                  exact hflag
                rcases revealLoop_new_unflagged selLast (revealFuel b1) b1
                    [(x.toNat, y.toNat)] [] cx cy hrev with hr1 | hf1
                · have hrs : (cellAtD s.board cx cy).isRevealed = true := by
                    rw [← hrev1 cx cy]
                    exact hr1
                  have hfs : (cellAtD s.board cx cy).isFlagged = true := by
                    rw [← hflag1 cx cy]
                    exact hflag_b1
                  exact hnrf hst cx cy ⟨hrs, hfs⟩
                · rw [hf1] at hflag_b1
                  exact absurd hflag_b1 (by decide)

theorem handleCellRightClick_inv {s s1 : Session} {x y : Int}
    (hinv : SessionInv s) (h : handleCellRightClick s x y = some s1) :
    SessionInv s1 := by
  obtain ⟨hwf, hnrf⟩ := hinv
  unfold handleCellRightClick at h
  split at h
  · cases h
    exact ⟨hwf, hnrf⟩
  · rename_i hcond
    push_neg at hcond
    split at h
    · exact Option.noConfusion h
    · rename_i xs cell hcell
      split at h
      · cases h
        exact ⟨hwf, hnrf⟩
      · rename_i hrev
        cases h
        refine ⟨WF_updateCell _ _ _ hwf, ?_⟩
        intro hstp cx cy hcon
        obtain ⟨hr1, hf1⟩ := hcon
        rcases cellAtD_updateCell_cases s.board x.toNat y.toNat
            (fun c => { c with isFlagged := !c.isFlagged }) cx cy with hc | hc
        · rw [hc] at hr1 hf1
          exact hnrf hstp cx cy ⟨hr1, hf1⟩
        · obtain ⟨hcx, hcy, heq⟩ := hc
          rw [heq] at hr1
          obtain ⟨_, _, _, _, hcelleq⟩ := cellAt?_eq_some hcell
          rw [hcelleq] at hrev
          subst hcx
          subst hcy
          exact absurd hr1 hrev

theorem step_preserves_inv {s s1 : Session} (hstep : Step s s1)
    (hinv : SessionInv s) : SessionInv s1 := by
  cases hstep with
  | click x y picks h => exact handleCellClick_inv hinv h
  | rclick x y h => exact handleCellRightClick_inv hinv h
  | reset => exact freshSession_inv _
  | changeDifficulty d => exact freshSession_inv d

/-- C7 (amended): in every session reachable from a fresh session by
engine actions, no cell is simultaneously revealed and flagged while the
status is still Playing.  (The Lost transition reveals every mine without
clearing flags, so a flagged mine is both revealed and flagged after a
loss — see the counterexample.) -/
theorem reachable_inv {s : Session} (hreach : Reachable s) : SessionInv s := by
  obtain ⟨d, hrt⟩ := hreach
  induction hrt with
  | refl => exact freshSession_inv d
  | tail hpre hstep ih => exact step_preserves_inv hstep ih

/-- C7 (amended): in every session reachable from a fresh session by
engine actions, no cell is simultaneously revealed and flagged while the
status is still Playing.  (The Lost transition reveals every mine without
clearing flags, so a flagged mine is both revealed and flagged after a
loss — see the counterexample.) -/
theorem claim_C7_playing_no_reveal_flag (s : Session)
    (hreach : Reachable s) (hst : s.status = .playing) :
    ∀ x y, ¬((cellAtD s.board x y).isRevealed = true ∧
      (cellAtD s.board x y).isFlagged = true) :=
  (reachable_inv hreach).2 hst

theorem claim_C7_witness :
    Reachable (freshSession .Beginner) ∧
    (freshSession .Beginner).status = .playing ∧
    ∀ x y, ¬((cellAtD (freshSession .Beginner).board x y).isRevealed = true ∧
      (cellAtD (freshSession .Beginner).board x y).isFlagged = true) :=
  ⟨⟨.Beginner, Relation.ReflTransGen.refl⟩, rfl,
    claim_C7_playing_no_reveal_flag (freshSession .Beginner)
      ⟨.Beginner, Relation.ReflTransGen.refl⟩ rfl⟩

/-- C7 counterexample: a concrete reachable session — first click at
(0, 0) places ten mines, then the mine at (7, 7) is flagged, then the
mine at (8, 7) is clicked — ends Lost with the cell (7, 7) simultaneously
revealed and flagged: the loss transition reveals all mines without
clearing their flags. -/
theorem claim_C7_counterexample :
    Reachable lossSession3 ∧
    (cellAtD lossSession3.board 7 7).isRevealed = true ∧
    (cellAtD lossSession3.board 7 7).isFlagged = true := by
  have h1 : handleCellClick (freshSession .Beginner) 0 0 lossPicks =
      some lossSession1 := by decide
  have h2 : handleCellRightClick lossSession1 7 7 = some lossSession2 := by
    decide
  have h3 : handleCellClick lossSession2 8 7 [] = some lossSession3 := by
    decide
  refine ⟨⟨.Beginner, ?_⟩, by decide, by decide⟩
  exact Relation.ReflTransGen.tail (Relation.ReflTransGen.tail
    (Relation.ReflTransGen.tail Relation.ReflTransGen.refl
      (Step.click 0 0 lossPicks h1)) (Step.rclick 7 7 h2))
    (Step.click 8 7 [] h3)

/-- C5: from a Playing session, a reveal action on an unflagged,
unrevealed mine cell sets the status to Lost and yields a board where
every mine cell is revealed while every cell's flag state is unchanged. -/
theorem claim_C5_mine_click_loses (s : Session) (x y : Int)
    (picks : List (Nat × Nat)) (s1 : Session) (cell : Cell)
    (hwf : WF s.board) (hst : s.status = .playing)
    (hcell : cellAt? s.board x y = some cell)
    (hnf : cell.isFlagged = false) (hnr : cell.isRevealed = false)
    (hm : cell.isMine = true)
    (hrun : handleCellClick s x y picks = some s1) :
    s1.status = .lost ∧
    (∀ cx cy, (cellAtD s1.board cx cy).isMine = true →
      (cellAtD s1.board cx cy).isRevealed = true) ∧
    (∀ cx cy, (cellAtD s1.board cx cy).isFlagged =
      (cellAtD s.board cx cy).isFlagged) := by
  obtain ⟨hx0, hxc, hy0, hyr, hcelldef⟩ := cellAt?_eq_some hcell
  unfold handleCellClick at hrun
  split at hrun
  · rename_i hstc
    exact absurd hst hstc
  · split at hrun
    · rename_i xs heqn
      rw [hcell] at heqn
      exact Option.noConfusion heqn
    · rename_i xs cell2 hcell2
      rw [hcell] at hcell2
      cases hcell2
      split at hrun
      · rename_i hfr
        rw [hnf, hnr] at hfr
        rcases hfr with hcon | hcon
        · exact absurd hcon (by decide)
        · exact absurd hcon (by decide)
      · split at hrun
        · exact Option.noConfusion hrun
        · rename_i xb b1 hb1
          have hb1facts : rows b1 = rows s.board ∧ cols b1 = cols s.board ∧
              (∀ a c, (cellAtD s.board a c).isMine = true →
                (cellAtD b1 a c).isMine = true) ∧
              (∀ a c, (cellAtD b1 a c).isFlagged =
                (cellAtD s.board a c).isFlagged) := by
            by_cases hstart : s.started = true
            · rw [if_pos hstart] at hb1
              cases hb1
              exact ⟨rfl, rfl, fun a c hmm => hmm, fun a c => rfl⟩
            · rw [if_neg hstart] at hb1
              obtain ⟨hwf1, hr1, hc1, hcells⟩ := placeMines_frame hwf hb1
              exact ⟨hr1, hc1, fun a c => (hcells a c).2.2,
                fun a c => (hcells a c).2.1⟩
          obtain ⟨hbr, hbc, hbmine, hbflag⟩ := hb1facts
          have hm1 : (cellAtD b1 x.toNat y.toNat).isMine = true := by
            refine hbmine _ _ ?_
            rw [← hcelldef]
            exact hm
          split at hrun
          · rename_i xc heqn
            exfalso
            unfold cellAt? at heqn
            rw [if_pos ⟨hx0, by rw [hbc]; exact hxc, hy0,
              by rw [hbr]; exact hyr⟩] at heqn
            exact Option.noConfusion heqn
          · rename_i xc cell1 hcell1
            have hcell1def : cell1 = cellAtD b1 x.toNat y.toNat :=
              (cellAt?_eq_some hcell1).2.2.2.2
            split at hrun
            · cases hrun
              refine ⟨rfl, ?_, ?_⟩
              · intro cx cy
                exact (revealMines_map_facts _ cx cy).1
              · intro cx cy
                rw [(revealMines_map_facts _ cx cy).2,
                  (setRevealed_cell_facts b1 x.toNat y.toNat cx cy).1,
                  hbflag cx cy]
            · rename_i hmine1
              exfalso
              refine hmine1 ?_
              rw [hcell1def]
              exact hm1

theorem claim_C5_witness :
    WF (updateCell (createEmptyBoard 2 2) 1 1
      fun c => { c with isMine := true }) ∧
    (cellAtD (updateCell (createEmptyBoard 2 2) 1 1
      fun c => { c with isMine := true }) 1 1).isMine = true ∧
    (({ difficulty := .Beginner,
        board := updateCell (createEmptyBoard 2 2) 1 1
          fun c => { c with isMine := true },
        status := .playing, started := true } : Session).status = .playing) ∧
    ((handleCellClick
      { difficulty := .Beginner,
        board := updateCell (createEmptyBoard 2 2) 1 1
          fun c => { c with isMine := true },
        status := .playing, started := true } 1 1 []).getD
        (freshSession .Beginner)).status = .lost := by
  refine ⟨by decide, by decide, rfl, ?_⟩
  have hres := claim_C5_mine_click_loses
    { difficulty := .Beginner,
      board := updateCell (createEmptyBoard 2 2) 1 1
        fun c => { c with isMine := true },
      status := .playing, started := true } 1 1 []
    ((handleCellClick
      { difficulty := .Beginner,
        board := updateCell (createEmptyBoard 2 2) 1 1
          fun c => { c with isMine := true },
        status := .playing, started := true } 1 1 []).getD
        (freshSession .Beginner))
    (cellAtD (updateCell (createEmptyBoard 2 2) 1 1
      fun c => { c with isMine := true }) 1 1)
    (by decide) rfl rfl (by decide) (by decide) (by decide) rfl
  exact hres.1

end Minesweeper
